import Mathlib

/-!
# Verification of the deterministic callback orchestrator

Shallow embedding of `src/src/orchestrator/orchestrator/orchestrator_lib/orchestrator.py`
(the authoritative copy; an older copy lives under
`src/src/orchestrator_dummy_nodes/.../orchestrator_lib/orchestrator.py`).

Conventions:
* logical time is in nanoseconds, embedded as `Nat` (the source uses `rclpy.time.Time`
  and its `.nanoseconds` accessor);
* message payloads are opaque; they are embedded as `Nat` handles;
* Python exceptions are embedded as `Except OrchError`; a raised exception is fatal
  in this system (spec §7: "All errors are surfaced; no local retries"), so an
  erroneous call produces no successor state;
* the unbounded recursion of `__add_action_and_effects` is driven by explicit fuel;
  running out of fuel is a distinguished error (`fuelExhausted`), representing the
  nontermination of the source on configurations with cyclic topic dependencies.
-/

namespace Orch

abbrev TopicName := String
abbrev NodeName := String
abbrev Time := Nat
abbrev Msg := Nat

/-- Modelled from the spec: action lifecycle states (§3, C2 "Action");
the source's `ActionState` lives in the `action.py` module, which is not
part of the provided sources. -/
inductive ActionState where
  | WAITING
  | READY
  | RUNNING
deriving DecidableEq, Repr

/-- Modelled from the spec: edge kinds of the constraint graph (§3, C3);
the source's `EdgeType` lives in the `action.py` module, which is not
part of the provided sources. -/
inductive EdgeType where
  | SAME_NODE
  | SAME_TOPIC
  | CAUSALITY
deriving DecidableEq, Repr

/-- Modelled from the spec: a cause is `TopicInput(topic)` or `TimerInput(period_ns)`
(§3, C1 "Node model"); the source's `Cause` lives in `node_model.py`, which is not
part of the provided sources. -/
inductive Cause where
  | topicInput (input_topic : TopicName)
  | timerInput (period : Nat)
deriving DecidableEq, Repr

/-- Modelled from the spec: an effect is `TopicPublish(topic)`, `StatusPublish` or
`ServiceCall(service)` (§3, C1); the source's `Effect` lives in `node_model.py`. -/
inductive Effect where
  | topicPublish (output_topic : TopicName)
  | statusPublish
  | serviceCall (service : String)
deriving DecidableEq, Repr

/-- Modelled from the spec: actions are a tagged sum `{RxAction, TimerAction}` (§9,
"Callback plurality"), with the fields used by the orchestrator source
(`state`, `node`, `timestamp`, `cause`, and `topic`/`data` resp. `period`); the
source's `RxAction`/`TimerCallbackAction` classes live in `action.py`. -/
inductive Action where
  | rx (state : ActionState) (node : NodeName) (timestamp : Time)
       (cause : Cause) (topic : TopicName) (data : Option Msg)
  | timer (state : ActionState) (node : NodeName) (timestamp : Time)
          (cause : Cause) (period : Nat)
deriving DecidableEq, Repr

namespace Action

def state : Action → ActionState
  | rx s _ _ _ _ _ => s
  | timer s _ _ _ _ => s

def node : Action → NodeName
  | rx _ n _ _ _ _ => n
  | timer _ n _ _ _ => n

def timestamp : Action → Time
  | rx _ _ t _ _ _ => t
  | timer _ _ t _ _ => t

def cause : Action → Cause
  | rx _ _ _ c _ _ => c
  | timer _ _ _ c _ => c

def isRx : Action → Bool
  | rx _ _ _ _ _ _ => true
  | timer _ _ _ _ _ => false

/-- `isinstance(a, RxAction) and a.topic == t` -/
def isRxOn (a : Action) (t : TopicName) : Bool :=
  match a with
  | rx _ _ _ _ topic _ => topic = t
  | timer _ _ _ _ _ => false

def setState (s : ActionState) : Action → Action
  | rx _ n t c top d => rx s n t c top d
  | timer _ n t c p => timer s n t c p

/-- Buffer a payload and ready the action
(`rxdata.state = ActionState.READY; rxdata.data = msg`, orchestrator.py:515-517). -/
def buffer (m : Msg) : Action → Action
  | rx _ n t c top _ => rx .READY n t c top (some m)
  | timer s n t c p => timer s n t c p

end Action

/-- Modelled from the spec: a node model is a name with declared inputs and, per
input, an ordered list of effects (§4.1); the source's `NodeModel` lives in
`node_model.py` and exposes `get_name`, `get_possible_inputs`, `effects_for_input`. -/
structure NodeModel where
  name : NodeName
  causes : List (Cause × List Effect)
deriving DecidableEq, Repr

namespace NodeModel

def get_name (m : NodeModel) : NodeName := m.name

def get_possible_inputs (m : NodeModel) : List Cause := m.causes.map (·.1)

def effects_for_input (m : NodeModel) (c : Cause) : List Effect :=
  match m.causes.find? (fun p => p.1 = c) with
  | some p => p.2
  | none => []

end NodeModel

/-! ## The constraint graph

The source uses a `networkx.DiGraph` whose nodes are integer ids carrying a
`data` attribute (the `Action`), and whose edges carry an `edge_type`
attribute.  `add_edge` on an existing pair overwrites the attribute;
node iteration is in insertion order. -/

structure Graph where
  nodes : List (Nat × Action)
  edges : List (Nat × Nat × EdgeType)
deriving DecidableEq, Repr

namespace Graph

def empty : Graph := ⟨[], []⟩

def ids (g : Graph) : List Nat := g.nodes.map (·.1)

/-- `graph.add_node(node_id, data=action)` (appends; networkx keeps insertion order). -/
def addNode (g : Graph) (i : Nat) (a : Action) : Graph :=
  { g with nodes := g.nodes ++ [(i, a)] }

/-- `graph.add_edge(u, v, edge_type=t)`: if the edge exists its attribute is
overwritten, otherwise the edge is appended. -/
def addEdge (g : Graph) (u v : Nat) (t : EdgeType) : Graph :=
  if g.edges.any (fun e => e.1 = u ∧ e.2.1 = v) then
    { g with edges := g.edges.map (fun e => if e.1 = u ∧ e.2.1 = v then (u, v, t) else e) }
  else
    { g with edges := g.edges ++ [(u, v, t)] }

/-- `graph.has_successor(u, v)` -/
def hasEdge (g : Graph) (u v : Nat) : Bool :=
  g.edges.any (fun e => e.1 = u ∧ e.2.1 = v)

/-- `graph.edges[u, v]["edge_type"]` (valid only when the edge exists). -/
def edgeTypeOf (g : Graph) (u v : Nat) : Option EdgeType :=
  (g.edges.find? (fun e => e.1 = u ∧ e.2.1 = v)).map (·.2.2)

/-- `graph.out_degree(u)` (number of successors; at most one edge per pair). -/
def outDeg (g : Graph) (u : Nat) : Nat :=
  (g.edges.filter (fun e => e.1 = u)).length

/-- `graph.remove_node(i)`: removes the node and all incident edges. -/
def removeNode (g : Graph) (i : Nat) : Graph :=
  { nodes := g.nodes.filter (fun p => p.1 ≠ i),
    edges := g.edges.filter (fun e => e.1 ≠ i ∧ e.2.1 ≠ i) }

/-- Update the action stored at node `i`. -/
def setAction (g : Graph) (i : Nat) (a : Action) : Graph :=
  { g with nodes := g.nodes.map (fun p => if p.1 = i then (i, a) else p) }

def getAction (g : Graph) (i : Nat) : Option Action :=
  (g.nodes.find? (fun p => p.1 = i)).map (·.2)

end Graph

/-! ## Orchestrator state and errors -/

/-- Static configuration handed to `Orchestrator.__init__`:
the node models and the external-input topic set. -/
structure Config where
  node_models : List NodeModel
  external_input_topics : List TopicName
deriving DecidableEq, Repr

/-- `FutureInput` / `FutureTimestep` (orchestrator.py:34-44); the `Future` object
is represented by the grant events below. -/
inductive NextInput where
  | futureInput (topic : TopicName)
  | futureTimestep (time : Time)
deriving DecidableEq, Repr

/-- The orchestrator's mutable state: pending offer, simulator time, constraint
graph, and the global `_next_id` counter (orchestrator.py:24-30, 68-76). -/
structure OState where
  next_input : Option NextInput
  simulator_time : Option Time
  graph : Graph
  next_id : Nat
deriving DecidableEq, Repr

/-- Python exceptions raised by the orchestrator.  Every raise is fatal
(spec §7), so an error result produces no successor state. -/
inductive OrchError where
  /-- "Data source wants to provide next input/timestep before waiting on the last one!" -/
  | offerPending
  /-- "Data source has to provide time before first data" (line 121) -/
  | timeBeforeData
  /-- "simulator_time has to be initialized before adding timer events" (line 164) -/
  | simTimeUnset
  /-- "Requested timestep too large! ..." (line 188) -/
  | stepTooLarge
  /-- "No unused input available..." / "There is no next input!" (lines 237, 336) -/
  | noNextInput
  /-- `ActionNotFoundError` (lines 371, 382, re-raise at 487) -/
  | actionNotFound
  /-- `NotImplementedError` (lines 261, 312) -/
  | notImplemented
  /-- `KeyError`: missing node model (line 531) or missing node attribute (lines 481, 510) -/
  | keyError
  /-- failed `assert` (lines 223, 267, 509, 516) -/
  | assertionFailed
  /-- out of fuel: represents nonterminating recursion of `__add_action_and_effects` -/
  | fuelExhausted
deriving DecidableEq, Repr

/-- Observable side effects: publications on interception publishers and
completions of offer futures (`set_result`). -/
inductive Event where
  | publish (node : NodeName) (topic : TopicName) (msg : Option Msg)
  | grantedInput (topic : TopicName)
  | grantedTime (t : Time)
deriving DecidableEq, Repr

/-! ## Orchestrator methods (translated from orchestrator.py) -/

/-- `Orchestrator.__node_model_by_name` (lines 526-531): first model with the
given name, `KeyError` if absent (returned as `none` here; call sites raise). -/
def node_model_by_name (cfg : Config) (name : NodeName) : Option NodeModel :=
  cfg.node_models.find? (fun m => m.get_name = name)

/-- The inner loop of the multi-publisher connections (lines 276-280): an edge
from `cause_node_id` to every rx action on topic `t` in the node snapshot. -/
def add_same_topic_edges_for (cause_node_id : Nat) (t : TopicName) :
    List (Nat × Action) → Graph → Graph
  | [], g => g
  | p :: rest, g =>
      add_same_topic_edges_for cause_node_id t rest
        (if p.2.isRxOn t then g.addEdge cause_node_id p.1 .SAME_TOPIC else g)

/-- The multi-publisher connections loop (lines 270-280), over the effects. -/
def add_same_topic_edges (cause_node_id : Nat) : List Effect → Graph → Graph
  | [], g => g
  | .topicPublish t :: rest, g =>
      add_same_topic_edges cause_node_id rest
        (add_same_topic_edges_for cause_node_id t g.nodes g)
  | _ :: rest, g => add_same_topic_edges cause_node_id rest g

/-- The rx actions produced for one `TopicPublish(t)` effect (lines 285-289):
one WAITING rx action per node model declaring `TopicInput(t)`. -/
def child_actions_for_topic (cfg : Config) (time : Time) (t : TopicName) : List Action :=
  cfg.node_models.filterMap (fun node =>
    if Cause.topicInput t ∈ node.get_possible_inputs then
      some (Action.rx .WAITING node.get_name time (.topicInput t) t none)
    else none)

/-- The recursively added rx actions over all effects (lines 282-289), in
source order. -/
def child_actions (cfg : Config) (time : Time) : List Effect → List Action
  | [] => []
  | .topicPublish t :: rest => child_actions_for_topic cfg time t ++ child_actions cfg time rest
  | _ :: rest => child_actions cfg time rest

/-- `Orchestrator.__add_all_effects_for_cause` (lines 265-289) without the
recursive `__add_action_and_effects` calls: adds the SAME_TOPIC edges and
returns the list of rx actions to insert recursively (in source order). -/
def add_all_effects_for_cause (cfg : Config) (g : Graph) (node_name : NodeName)
    (cause : Cause) (cause_node_id : Nat) (time : Time) :
    Except OrchError (Graph × List Action) :=
  match node_model_by_name cfg node_name with
  | none => .error .keyError
  | some node_model =>
    if cause ∈ node_model.get_possible_inputs then
      let effects := node_model.effects_for_input cause
      .ok (add_same_topic_edges cause_node_id effects g, child_actions cfg time effects)
    else .error .assertionFailed   -- line 267 `assert cause in ...`

/-- Lines 256-261 of `__add_action_and_effects`: the cause recomputed from the
action's fields (a `NotImplementedError` is unreachable for this sum type). -/
def recomputed_cause : Action → Cause
  | .timer _ _ _ _ period => .timerInput period
  | .rx _ _ _ _ topic _ => .topicInput topic

/-- The sibling-connection loop (lines 246-249): an edge from `node_id` to
every other action at the same node in the snapshot. -/
def add_same_node_edges (node_id : Nat) (node_name : NodeName) :
    List (Nat × Action) → Graph → Graph
  | [], g => g
  | p :: rest, g =>
      add_same_node_edges node_id node_name rest
        (if p.2.node = node_name ∧ p.1 ≠ node_id then g.addEdge node_id p.1 .SAME_NODE else g)

/-- `Orchestrator.__add_action_and_effects` (lines 239-263) for a single action,
without the recursive child insertions: allocates the id, adds the node, the
SAME_NODE edges, the CAUSALITY edge to the parent, and the SAME_TOPIC edges;
returns the children to insert. -/
def add_action_and_effects_step (cfg : Config) (g : Graph) (next_id : Nat)
    (action : Action) (parent : Option Nat) :
    Except OrchError (Graph × Nat × List Action) :=
  let node_id := next_id
  let g := g.addNode node_id action
  let g := add_same_node_edges node_id action.node g.nodes g
  let g := match parent with
    | some p => g.addEdge node_id p .CAUSALITY   -- line 254
    | none => g
  match add_all_effects_for_cause cfg g action.node (recomputed_cause action)
      node_id action.timestamp with
  | .error e => .error e
  | .ok (g, children) => .ok (g, node_id, children)

/-- The recursion of `__add_action_and_effects`, driven as a depth-first
worklist: children are inserted (with `parent := some node_id`) before the
remaining pending actions, matching the source's call order.  Fuel bounds the
recursion; exhaustion models the nontermination of the Python recursion on
configurations with cyclic topic dependencies. -/
def add_action_and_effects (cfg : Config) :
    Nat → Graph → Nat → List (Action × Option Nat) → Except OrchError (Graph × Nat)
  | _, g, next_id, [] => .ok (g, next_id)
  | 0, _, _, _ :: _ => .error .fuelExhausted
  | fuel+1, g, next_id, (action, parent) :: rest =>
      match add_action_and_effects_step cfg g next_id action parent with
      | .error e => .error e
      | .ok (g, node_id, children) =>
          add_action_and_effects cfg fuel g (next_id+1)
            (children.map (fun c => (c, some node_id)) ++ rest)

/-- `Orchestrator.__add_topic_input` (lines 197-210): one WAITING rx action per
node model that declares `TopicInput(topic)`, inserted with their effects. -/
def add_topic_input (cfg : Config) (fuel : Nat) (g : Graph) (next_id : Nat)
    (t : Time) (topic : TopicName) : Except OrchError (Graph × Nat) :=
  let input := Cause.topicInput topic
  let expected_rx_actions := cfg.node_models.filterMap (fun node =>
    if input ∈ node.get_possible_inputs then
      some (Action.rx .WAITING node.get_name t (.topicInput topic) topic none)
    else none)
  add_action_and_effects cfg fuel g next_id (expected_rx_actions.map (fun a => (a, none)))

/-- The timer-collection loop (lines 173-177): it rebinds the local `timer` for
each `TimerInput` but never appends it to `timers`, so the collected list is
always empty. -/
def collect_timers (cfg : Config) : List (NodeName × Nat) :=
  cfg.node_models.foldl (fun timers node_model =>
    node_model.get_possible_inputs.foldl (fun timers input_cause =>
      match input_cause with
      | .timerInput _ => timers   -- `timer = Timer(...)`: rebinding, no append
      | _ => timers) timers) []

/-- The per-timer fire computation (lines 181-192): at most one fire per timer
in `(last_time, t]`, `StepTooLarge` when the step exceeds the period. -/
def expected_timer_actions (timers : List (NodeName × Nat)) (last_time t : Time) :
    Except OrchError (List Action) :=
  timers.foldl (fun acc timer =>
    match acc with
    | .error e => .error e
    | .ok l =>
      let period := timer.2
      let nr_fires := last_time / period
      let last_fire := nr_fires * period
      let next_fire := last_fire + period
      let dt : Int := (t : Int) - (last_time : Int)
      if dt > (period : Int) then .error .stepTooLarge   -- lines 187-189
      else if next_fire ≤ t then
        .ok (l ++ [Action.timer .READY timer.1 t (.timerInput period) period])
      else .ok l) (.ok [])

/-- `Orchestrator.__add_pending_timers_until` (lines 150-195): collect the
timers, compute the expected fires, insert the resulting actions. -/
def add_pending_timers_until (cfg : Config) (fuel : Nat) (g : Graph) (next_id : Nat)
    (simulator_time : Option Time) (t : Time) : Except OrchError (Graph × Nat) :=
  match simulator_time with
  | none => .error .simTimeUnset   -- lines 163-164
  | some st =>
    match expected_timer_actions (collect_timers cfg) st t with
    | .error e => .error e
    | .ok acts => add_action_and_effects cfg fuel g next_id (acts.map (fun a => (a, none)))

/-- Modelled from the spec: the intended timer collection.  Design note (b) of
the spec: "the source creates `expected_timer_actions` inside a loop that
overwrites `timer` without collecting; this is almost certainly a bug — the
spec treats the intended behavior (iterate all timers) as authoritative."
This is the same loop with the missing append. -/
def collect_timers_spec (cfg : Config) : List (NodeName × Nat) :=
  cfg.node_models.foldl (fun timers node_model =>
    node_model.get_possible_inputs.foldl (fun timers input_cause =>
      match input_cause with
      | .timerInput period => timers ++ [(node_model.get_name, period)]
      | _ => timers) timers) []

/-- `Orchestrator.__graph_is_busy` (lines 352-359). -/
def graph_is_busy (g : Graph) : Bool :=
  g.nodes.any (fun p => p.2.state = .RUNNING ∨ p.2.state = .WAITING)

/-- `Orchestrator.__ready_for_next_input` (lines 325-350). -/
def ready_for_next_input (next_input : Option NextInput) (g : Graph) :
    Except OrchError Bool :=
  match next_input with
  | none => .error .noNextInput
  | some (.futureTimestep _) => .ok true
  | some (.futureInput topic) =>
      .ok (¬ g.nodes.any (fun p =>
        (p.2.state = .READY ∨ p.2.state = .WAITING) ∧ p.2.isRxOn topic))

/-- `Orchestrator.__request_next_input` (lines 212-237): grants the pending
offer, inserting its actions and completing its future. -/
def request_next_input (cfg : Config) (fuel : Nat) (s : OState) :
    Except OrchError (OState × List Event) :=
  match s.next_input with
  | some (.futureInput topic) =>
      match s.simulator_time with
      | none => .error .assertionFailed   -- line 223
      | some st =>
        match add_topic_input cfg fuel s.graph s.next_id st topic with
        | .error e => .error e
        | .ok (g, nid) =>
            .ok ({ s with next_input := none, graph := g, next_id := nid },
                 [.grantedInput topic])
  | some (.futureTimestep t) =>
      match add_pending_timers_until cfg fuel s.graph s.next_id s.simulator_time t with
      | .error e => .error e
      | .ok (g, nid) =>
          .ok ({ s with next_input := none, graph := g, next_id := nid,
                        simulator_time := some t },
               [.grantedTime t])
  | none => .error .noNextInput   -- line 237

/-- `Orchestrator.wait_until_publish_allowed` (lines 110-132). -/
def wait_until_publish_allowed (cfg : Config) (fuel : Nat) (s : OState)
    (topic : TopicName) : Except OrchError (OState × List Event) :=
  if s.next_input ≠ none then .error .offerPending
  else if s.simulator_time = none then .error .timeBeforeData
  else
    let s := { s with next_input := some (.futureInput topic) }
    if ¬ graph_is_busy s.graph then request_next_input cfg fuel s
    else .ok (s, [])

/-- `Orchestrator.wait_until_time_publish_allowed` (lines 134-148). -/
def wait_until_time_publish_allowed (cfg : Config) (fuel : Nat) (s : OState)
    (t : Time) : Except OrchError (OState × List Event) :=
  if s.next_input ≠ none then .error .offerPending
  else
    let s := { s with next_input := some (.futureTimestep t) }
    if ¬ graph_is_busy s.graph then request_next_input cfg fuel s
    else .ok (s, [])

/-- One iteration of the `while repeat` loop of `Orchestrator.__process`
(lines 294-314): every action with out-degree 0 and state READY is set to
RUNNING; an rx action publishes its buffered data, a timer action raises
`NotImplementedError`.  Out-degrees are unchanged by the loop body, so they
are read from the snapshot `g0`. -/
def process_pass_aux (g0 : Graph) :
    List (Nat × Action) → Graph → List Event → Bool →
    Except OrchError (Graph × List Event × Bool)
  | [], g, evs, rep => .ok (g, evs, rep)
  | p :: rest, g, evs, rep =>
      if 0 < g0.outDeg p.1 then process_pass_aux g0 rest g evs rep         -- line 298
      else if p.2.state ≠ .READY then process_pass_aux g0 rest g evs rep   -- line 302
      else
        match p.2 with
        | .rx _ node ts c topic d =>                                       -- lines 305-310
            process_pass_aux g0 rest (g.setAction p.1 (.rx .RUNNING node ts c topic d))
              (evs ++ [.publish node topic d]) true
        | .timer _ _ _ _ _ => .error .notImplemented                       -- lines 311-312

def process_pass (g0 : Graph) : Except OrchError (Graph × List Event × Bool) :=
  process_pass_aux g0 g0.nodes g0 [] false

/-- The `while repeat` loop of `__process` (lines 293-314), fueled. -/
def process_loop : Nat → Graph → Except OrchError (Graph × List Event)
  | 0, _ => .error .fuelExhausted
  | fuel+1, g =>
    match process_pass g with
    | .error e => .error e
    | .ok (g, evs, true) =>
        match process_loop fuel g with
        | .error e => .error e
        | .ok (g', evs') => .ok (g', evs ++ evs')
    | .ok (g, evs, false) => .ok (g, evs)

/-- `Orchestrator.__process` (lines 291-323): run the scheduling loop, then
attempt to grant the pending offer. -/
def process (cfg : Config) (fuel : Nat) (s : OState) :
    Except OrchError (OState × List Event) :=
  match process_loop fuel s.graph with
  | .error e => .error e
  | .ok (g, evs) =>
    let s := { s with graph := g }
    match s.next_input with
    | none => .ok (s, evs)                              -- lines 317-318
    | some ni =>
      match ready_for_next_input (some ni) s.graph with
      | .error e => .error e
      | .ok false => .ok (s, evs)                       -- lines 319-320
      | .ok true =>
        match request_next_input cfg fuel s with        -- lines 322-323
        | .error e => .error e
        | .ok (s', evs') => .ok (s', evs ++ evs')

/-- `Orchestrator.__find_running_action` (lines 361-371): first RUNNING action
whose model's effects for its cause contain `TopicPublish(published_topic_name)`;
a RUNNING action at an unmodelled node raises `KeyError`, no match raises
`ActionNotFoundError`. -/
def find_running_action_aux (cfg : Config) (published_topic_name : TopicName) :
    List (Nat × Action) → Except OrchError Nat
  | [] => .error .actionNotFound
  | p :: rest =>
      if p.2.state = .RUNNING then
        match node_model_by_name cfg p.2.node with
        | none => .error .keyError
        | some m =>
          if Effect.topicPublish published_topic_name ∈ m.effects_for_input p.2.cause
          then .ok p.1 else find_running_action_aux cfg published_topic_name rest
      else find_running_action_aux cfg published_topic_name rest

def find_running_action (cfg : Config) (g : Graph)
    (published_topic_name : TopicName) : Except OrchError Nat :=
  find_running_action_aux cfg published_topic_name g.nodes

/-- `Orchestrator.__find_running_action_status` (lines 373-382). -/
def find_running_action_status_aux (cfg : Config) (node_name : NodeName) :
    List (Nat × Action) → Except OrchError Nat
  | [] => .error .actionNotFound
  | p :: rest =>
      if p.2.state = .RUNNING ∧ p.2.node = node_name then
        match node_model_by_name cfg p.2.node with
        | none => .error .keyError
        | some m =>
          if Effect.statusPublish ∈ m.effects_for_input p.2.cause
          then .ok p.1 else find_running_action_status_aux cfg node_name rest
      else find_running_action_status_aux cfg node_name rest

def find_running_action_status (cfg : Config) (g : Graph)
    (node_name : NodeName) : Except OrchError Nat :=
  find_running_action_status_aux cfg node_name g.nodes

/-- `node_data["timestep"]` (lines 481 and 510): the authoritative `add_node`
call (line 243) stores only the `data` attribute, so the node's attribute
dictionary never contains `"timestep"` and this lookup always raises
`KeyError`.  (The older in-repo copy, `orchestrator_dummy_nodes/.../
orchestrator_lib/orchestrator.py` line 211, still passes `timestep=timestep`
to `add_node`; the refactor moved the timestamp into the `Action` but left
these reads behind.) -/
def node_timestep_attr (_g : Graph) (_i : Nat) : Except OrchError Time :=
  .error .keyError

/-- Lines 471-484 of `__interception_subscription_callback`: the earliest
`timestep` attribute among WAITING rx actions on the topic (`none` when no
such action exists, in which case the attribute is never read). -/
def external_input_timestep_aux (g : Graph) (topic_name : TopicName) :
    List (Nat × Action) → Option Time → Except OrchError (Option Time)
  | [], cur => .ok cur
  | p :: rest, cur =>
      match p.2 with
      | .rx .WAITING _ _ _ t _ =>
          if t = topic_name then
            match node_timestep_attr g p.1 with
            | .error e => .error e
            | .ok tt =>
                external_input_timestep_aux g topic_name rest
                  (match cur with
                   | none => some tt
                   | some c => if tt < c then some tt else some c)
          else external_input_timestep_aux g topic_name rest cur
      | _ => external_input_timestep_aux g topic_name rest cur

def external_input_timestep (g : Graph) (topic_name : TopicName) :
    Except OrchError (Option Time) :=
  external_input_timestep_aux g topic_name g.nodes none

/-- The buffering loop of `__interception_subscription_callback`
(lines 489-519): ready every WAITING rx action on the topic that is caused by
`cause` (via a CAUSALITY edge), or — for external input — whose `timestep`
attribute equals `input_ts`. -/
def buffer_loop_aux (g0 : Graph) (topic_name : TopicName) (msg : Msg)
    (cause : Option Nat) (input_ts : Option Time) :
    List (Nat × Action) → Graph → Except OrchError Graph
  | [], g => .ok g
  | p :: rest, g =>
      match p.2 with
      | .rx .WAITING _ _ _ t d =>
        if t = topic_name then
          match cause with
          | some cid =>
            -- lines 501-505: skip unless this action is caused by `cause`
            if g0.hasEdge p.1 cid ∧ g0.edgeTypeOf p.1 cid = some .CAUSALITY then
              if d = none then
                buffer_loop_aux g0 topic_name msg cause input_ts rest
                  (g.setAction p.1 (p.2.buffer msg))
              else .error .assertionFailed   -- line 516
            else buffer_loop_aux g0 topic_name msg cause input_ts rest g
          | none =>
            -- lines 507-511: external input, earliest timestep only
            match input_ts with
            | none => .error .assertionFailed   -- line 509
            | some its =>
              match node_timestep_attr g0 p.1 with
              | .error e => .error e
              | .ok tt =>
                if tt ≠ its then buffer_loop_aux g0 topic_name msg cause input_ts rest g
                else if d = none then
                  buffer_loop_aux g0 topic_name msg cause input_ts rest
                    (g.setAction p.1 (p.2.buffer msg))
                else .error .assertionFailed
        else buffer_loop_aux g0 topic_name msg cause input_ts rest g
      | _ => buffer_loop_aux g0 topic_name msg cause input_ts rest g

def buffer_loop (g0 : Graph) (topic_name : TopicName) (msg : Msg)
    (cause : Option Nat) (input_ts : Option Time) : Except OrchError Graph :=
  buffer_loop_aux g0 topic_name msg cause input_ts g0.nodes g0

/-- `Orchestrator.__interception_subscription_callback` (lines 440-524). -/
def interception_subscription_callback (cfg : Config) (fuel : Nat) (s : OState)
    (topic_name : TopicName) (msg : Msg) : Except OrchError (OState × List Event) :=
  if topic_name = "clock" then .ok (s, [])   -- lines 443-444
  else
    match find_running_action cfg s.graph topic_name with
    | .ok cause_action_id =>
        match buffer_loop s.graph topic_name msg (some cause_action_id) none with
        | .error e => .error e
        | .ok g =>
            process cfg fuel { s with graph := g.removeNode cause_action_id }
    | .error .actionNotFound =>
        if topic_name ∈ cfg.external_input_topics then
          match external_input_timestep s.graph topic_name with
          | .error e => .error e
          | .ok input_ts =>
            match buffer_loop s.graph topic_name msg none input_ts with
            | .error e => .error e
            | .ok g => process cfg fuel { s with graph := g }
        else .error .actionNotFound   -- line 487 re-raise
    | .error e => .error e

/-- `Orchestrator.__status_callback` (lines 533-540). -/
def status_callback (cfg : Config) (fuel : Nat) (s : OState)
    (node_name : NodeName) : Except OrchError (OState × List Event) :=
  match find_running_action_status cfg s.graph node_name with
  | .error e => .error e
  | .ok cause_action_id =>
      process cfg fuel { s with graph := s.graph.removeNode cause_action_id }

/-! ## The external-input delivery the claims intend (for the C8 divergence)

The definitions of this section are not part of the embedded program: the
orchestrator's external-input branch is `interception_subscription_callback`
above, translated from orchestrator.py:462-524, and that is what the
reachable-state machine below uses.  They formalize the behavior claim C8 (and
spec §4.6) says that branch should have — the computation the code would
perform if `add_node` stored the `timestep` attribute the branch reads (the
older in-repo copy, orchestrator_dummy_nodes/.../orchestrator.py:211, does
store it) — and appear only in C8's divergence conjunct, next to the faithful
branch that instead raises `KeyError`. -/

/-- The intended "`input_timestep` = minimum `timestamp` among WAITING Rx
actions on T" (C8, spec §4.6 step 2): the minimum over the action's own
`timestamp` field, which is what the older in-repo implementation computes
from the `timestep` node attribute it sets at insertion. -/
def external_min_timestep_aux (topic_name : TopicName) :
    List (Nat × Action) → Option Time → Option Time
  | [], cur => cur
  | p :: rest, cur =>
      match p.2 with
      | .rx .WAITING _ _ _ t _ =>
          if t = topic_name then
            external_min_timestep_aux topic_name rest
              (match cur with
               | none => some p.2.timestamp
               | some c => if p.2.timestamp < c then some p.2.timestamp else some c)
          else external_min_timestep_aux topic_name rest cur
      | _ => external_min_timestep_aux topic_name rest cur

def external_min_timestep (g : Graph) (topic_name : TopicName) : Option Time :=
  external_min_timestep_aux topic_name g.nodes none

/-- The intended "for each selected R: set `R.payload ← msg`,
`R.state ← READY`" for the WAITING Rx actions on T whose timestamp equals the
minimum (C8, spec §4.6 steps 3-4, external case). -/
def ready_external (g : Graph) (topic_name : TopicName) (msg : Msg)
    (its : Time) : Graph :=
  { g with nodes := g.nodes.map (fun p =>
      match p.2 with
      | .rx .WAITING _ _ _ t _ =>
          if t = topic_name ∧ p.2.timestamp = its then (p.1, p.2.buffer msg) else p
      | _ => p) }

/-- The interception callback as claim C8 intends it: the cause-found branch
is the authoritative code unchanged, and the external-input branch performs
the specified delivery (minimum timestamp over the waiting Rx actions' own
`timestamp` field, error if none exists) instead of raising `KeyError`.
Used only as the intended-behavior side of C8's divergence. -/
def interception_callback_spec (cfg : Config) (fuel : Nat) (s : OState)
    (topic_name : TopicName) (msg : Msg) : Except OrchError (OState × List Event) :=
  if topic_name = "clock" then .ok (s, [])
  else
    match find_running_action cfg s.graph topic_name with
    | .ok cause_action_id =>
        match buffer_loop s.graph topic_name msg (some cause_action_id) none with
        | .error e => .error e
        | .ok g =>
            process cfg fuel { s with graph := g.removeNode cause_action_id }
    | .error .actionNotFound =>
        if topic_name ∈ cfg.external_input_topics then
          match external_min_timestep s.graph topic_name with
          | none => .error .actionNotFound   -- spec §4.6: "Error if none."
          | some its =>
              process cfg fuel { s with graph := ready_external s.graph topic_name msg its }
        else .error .actionNotFound
    | .error e => .error e

/-! ## Operational steps and reachable states -/

/-- A fresh orchestrator's state (`__init__`, lines 47-76), with the initial
simulator time left as a parameter.  The source initializes it to `None`, and
no code path can ever set it (every time grant first runs
`__add_pending_timers_until`, which raises while it is unset, lines 163-164 —
claim C10), so the program's own runs are exactly `t0 = none`; the invariants
below are proved from every `t0`, a strict superset of those runs. -/
def initState (t0 : Option Time) : OState :=
  { next_input := none, simulator_time := t0, graph := Graph.empty, next_id := 0 }

/-- One externally triggered transition of the orchestrator: an offer from the
data source, an intercepted message (`__interception_subscription_callback`,
the authoritative code), or a status message.  A step exists only when the
call returns (errors are fatal); the fuel is existential, so any successful
bound works. -/
inductive Step (cfg : Config) : OState → OState → Prop where
  | offerInput (topic : TopicName) (fuel : Nat) (s s' : OState) (evs : List Event) :
      wait_until_publish_allowed cfg fuel s topic = .ok (s', evs) → Step cfg s s'
  | offerTime (t : Time) (fuel : Nat) (s s' : OState) (evs : List Event) :
      wait_until_time_publish_allowed cfg fuel s t = .ok (s', evs) → Step cfg s s'
  | message (topic : TopicName) (msg : Msg) (fuel : Nat) (s s' : OState) (evs : List Event) :
      interception_subscription_callback cfg fuel s topic msg = .ok (s', evs) → Step cfg s s'
  | status (node_name : NodeName) (fuel : Nat) (s s' : OState) (evs : List Event) :
      status_callback cfg fuel s node_name = .ok (s', evs) → Step cfg s s'

/-- States reachable from a fresh orchestrator after any sequence of offers,
message-interception callbacks and status callbacks. -/
def Reachable (cfg : Config) (t0 : Option Time) (s : OState) : Prop :=
  Relation.ReflTransGen (Step cfg) (initState t0) s

/-! ## Basic graph lemmas -/

namespace Graph

theorem mem_ids {g : Graph} {u : Nat} : u ∈ g.ids ↔ ∃ a, (u, a) ∈ g.nodes := by
  unfold ids
  constructor
  · intro h
    obtain ⟨p, hp, hp1⟩ := List.mem_map.mp h
    exact ⟨p.2, by rwa [← hp1]⟩
  · rintro ⟨a, ha⟩
    exact List.mem_map.mpr ⟨(u, a), ha, rfl⟩

theorem addEdge_nodes (g : Graph) (u v : Nat) (t : EdgeType) :
    (g.addEdge u v t).nodes = g.nodes := by
  unfold addEdge; split <;> rfl

theorem mem_addEdge_elim {g : Graph} {u v : Nat} {t : EdgeType} {e : Nat × Nat × EdgeType}
    (he : e ∈ (g.addEdge u v t).edges) : e ∈ g.edges ∨ e = (u, v, t) := by
  unfold addEdge at he
  split at he
  · obtain ⟨e', he', hmap⟩ := List.mem_map.mp he
    by_cases h : e'.1 = u ∧ e'.2.1 = v
    · rw [if_pos h] at hmap
      exact Or.inr hmap.symm
    · rw [if_neg h] at hmap
      exact Or.inl (hmap ▸ he')
  · rcases List.mem_append.mp he with h | h
    · exact Or.inl h
    · exact Or.inr (List.mem_singleton.mp h)

theorem mem_addEdge_of_ne_pair {g : Graph} {u v : Nat} {t : EdgeType}
    {e : Nat × Nat × EdgeType} (he : e ∈ g.edges) (hne : ¬(e.1 = u ∧ e.2.1 = v)) :
    e ∈ (g.addEdge u v t).edges := by
  unfold addEdge
  split
  · refine List.mem_map.mpr ⟨e, he, ?_⟩
    rw [if_neg hne]
  · exact List.mem_append.mpr (Or.inl he)

theorem mem_addEdge_of_ne_src {g : Graph} {u v : Nat} {t : EdgeType}
    {e : Nat × Nat × EdgeType} (he : e ∈ g.edges) (hne : e.1 ≠ u) :
    e ∈ (g.addEdge u v t).edges :=
  mem_addEdge_of_ne_pair he (fun h => hne h.1)

theorem mem_addEdge_self {g : Graph} (u v : Nat) (t : EdgeType) :
    (u, v, t) ∈ (g.addEdge u v t).edges := by
  unfold addEdge
  split
  · rename_i h
    obtain ⟨e', he', hcond⟩ := List.any_eq_true.mp h
    refine List.mem_map.mpr ⟨e', he', ?_⟩
    rw [if_pos (by simpa using hcond)]
  · exact List.mem_append.mpr (Or.inr (List.mem_singleton.mpr rfl))

theorem hasPair_addEdge {g : Graph} {x y : Nat} (u v : Nat) (t : EdgeType)
    (h : ∃ t', (x, y, t') ∈ g.edges) :
    ∃ t', (x, y, t') ∈ (g.addEdge u v t).edges := by
  by_cases hxy : x = u ∧ y = v
  · obtain ⟨hx, hy⟩ := hxy
    subst hx; subst hy
    exact ⟨t, mem_addEdge_self x y t⟩
  · obtain ⟨t', ht'⟩ := h
    exact ⟨t', mem_addEdge_of_ne_pair ht' hxy⟩

theorem outDeg_eq_zero {g : Graph} {u : Nat} :
    g.outDeg u = 0 ↔ ∀ e ∈ g.edges, e.1 ≠ u := by
  unfold outDeg
  rw [List.length_eq_zero, List.filter_eq_nil_iff]
  simp

theorem outDeg_pos {g : Graph} {u : Nat} :
    0 < g.outDeg u ↔ ∃ e ∈ g.edges, e.1 = u := by
  unfold outDeg
  rw [List.length_pos_iff_exists_mem]
  constructor
  · rintro ⟨e, he⟩
    have h := List.mem_filter.mp he
    exact ⟨e, h.1, by simpa using h.2⟩
  · rintro ⟨e, he, hu⟩
    exact ⟨e, List.mem_filter.mpr ⟨he, by simpa using hu⟩⟩

theorem mem_removeNode_nodes {g : Graph} {i : Nat} {p : Nat × Action} :
    p ∈ (g.removeNode i).nodes ↔ p ∈ g.nodes ∧ p.1 ≠ i := by
  unfold removeNode
  simp [List.mem_filter]

theorem mem_removeNode_edges {g : Graph} {i : Nat} {e : Nat × Nat × EdgeType} :
    e ∈ (g.removeNode i).edges ↔ e ∈ g.edges ∧ e.1 ≠ i ∧ e.2.1 ≠ i := by
  unfold removeNode
  simp [List.mem_filter]

theorem setAction_edges (g : Graph) (i : Nat) (a : Action) :
    (g.setAction i a).edges = g.edges := rfl

theorem mem_setAction_elim {g : Graph} {i : Nat} {a : Action} {p : Nat × Action}
    (hp : p ∈ (g.setAction i a).nodes) :
    (p ∈ g.nodes ∧ p.1 ≠ i) ∨ (p.1 = i ∧ p.2 = a ∧ ∃ c, (i, c) ∈ g.nodes) := by
  unfold setAction at hp
  obtain ⟨q, hq, hmap⟩ := List.mem_map.mp hp
  by_cases h : q.1 = i
  · rw [if_pos h] at hmap
    exact Or.inr ⟨by rw [← hmap], by rw [← hmap], q.2, by rwa [← h]⟩
  · rw [if_neg h] at hmap
    exact Or.inl ⟨hmap ▸ hq, hmap ▸ h⟩

theorem mem_setAction_of_ne {g : Graph} {i : Nat} {a : Action} {p : Nat × Action}
    (hp : p ∈ g.nodes) (hne : p.1 ≠ i) : p ∈ (g.setAction i a).nodes := by
  unfold setAction
  exact List.mem_map.mpr ⟨p, hp, by rw [if_neg hne]⟩

theorem mem_setAction_self {g : Graph} {i : Nat} {a : Action} {c : Action}
    (hc : (i, c) ∈ g.nodes) : (i, a) ∈ (g.setAction i a).nodes := by
  unfold setAction
  exact List.mem_map.mpr ⟨(i, c), hc, by rw [if_pos rfl]⟩

theorem setAction_ids (g : Graph) (i : Nat) (a : Action) :
    (g.setAction i a).ids = g.ids := by
  unfold setAction ids
  rw [List.map_map]
  refine List.map_congr_left fun p _ => ?_
  by_cases h : p.1 = i
  · simp [h]
  · simp [h]

theorem removeNode_ids {g : Graph} {i u : Nat} (hu : u ∈ (g.removeNode i).ids) :
    u ∈ g.ids ∧ u ≠ i := by
  obtain ⟨a, ha⟩ := mem_ids.mp hu
  have := mem_removeNode_nodes.mp ha
  exact ⟨mem_ids.mpr ⟨a, this.1⟩, this.2⟩

end Graph

/-! ## Characterization of the scheduling loop -/

/-- Eligibility test of `__process` (lines 298 and 302): out-degree zero and
state READY. -/
def eligibleB (g0 : Graph) (p : Nat × Action) : Bool :=
  g0.outDeg p.1 = 0 ∧ p.2.state = .READY

/-- The publication performed for a scheduled rx action (line 310). -/
def publishEvent : Action → Option Event
  | .rx _ n _ _ top d => some (.publish n top d)
  | .timer _ _ _ _ _ => none

theorem coupling_of_nodup {α : Type} {l : List (Nat × α)} (h : (l.map (·.1)).Nodup) :
    ∀ p ∈ l, ∀ q ∈ l, q.1 = p.1 → q = p := by
  induction l with
  | nil => intro p hp; cases hp
  | cons x xs ih =>
    rw [List.map_cons, List.nodup_cons] at h
    intro p hp q hq hqp
    rcases List.mem_cons.mp hp with rfl | hp' <;> rcases List.mem_cons.mp hq with rfl | hq'
    · rfl
    · exact absurd (List.mem_map.mpr ⟨q, hq', hqp⟩) h.1
    · exact absurd (List.mem_map.mpr ⟨p, hp', hqp.symm⟩) h.1
    · exact ih h.2 p hp' q hq' hqp

theorem process_pass_aux_eq (g0 : Graph) :
    ∀ (l : List (Nat × Action)), (∀ p ∈ l, p.2.isRx = true) →
    ∀ (g : Graph) (evs : List Event) (rep : Bool),
    process_pass_aux g0 l g evs rep = .ok
      (l.foldl (fun h p =>
         if eligibleB g0 p then h.setAction p.1 (p.2.setState .RUNNING) else h) g,
       evs ++ l.filterMap (fun p =>
         if eligibleB g0 p then publishEvent p.2 else none),
       rep || l.any (fun p => eligibleB g0 p)) := by
  intro l
  induction l with
  | nil => intro _ g evs rep; simp [process_pass_aux]
  | cons p rest ih =>
    intro hrx g evs rep
    have hrest : ∀ q ∈ rest, q.2.isRx = true := fun q hq => hrx q (List.mem_cons_of_mem _ hq)
    by_cases h1 : 0 < g0.outDeg p.1
    · have helig : eligibleB g0 p = false := by
        simp only [eligibleB, decide_eq_false_iff_not]
        intro hc
        omega
      simp only [process_pass_aux, if_pos h1]
      rw [ih hrest g evs rep]
      simp [helig]
    · by_cases h2 : p.2.state = .READY
      · obtain ⟨i, a⟩ := p
        cases a with
        | rx s n ts c top d =>
          simp only [Action.state] at h2
          subst h2
          have helig : eligibleB g0 (i, Action.rx .READY n ts c top d) = true := by
            simp only [eligibleB, decide_eq_true_eq]
            exact ⟨Nat.eq_zero_of_not_pos (by simpa using h1), rfl⟩
          simp only [process_pass_aux, if_neg h1]
          rw [if_neg (show ¬((i, Action.rx .READY n ts c top d).2.state ≠ .READY) by
            simp [Action.state])]
          rw [ih hrest]
          simp [helig, Action.setState, publishEvent]
        | timer s n ts c per =>
          exfalso
          have := hrx (i, Action.timer s n ts c per) (List.mem_cons_self _ _)
          simp [Action.isRx] at this
      · have helig : eligibleB g0 p = false := by
          simp only [eligibleB, decide_eq_false_iff_not]
          intro hc
          exact h2 hc.2
        simp only [process_pass_aux, if_neg h1, if_pos (by simpa using h2)]
        rw [ih hrest g evs rep]
        simp [helig]

theorem foldl_update_spec (cond : Nat × Action → Bool) (f : Nat × Action → Action) :
    ∀ (l : List (Nat × Action)) (g : Graph),
    (l.map (·.1)).Nodup →
    (∀ p ∈ l, ∀ q ∈ g.nodes, q.1 = p.1 → q = p) →
    (l.foldl (fun h p => if cond p then h.setAction p.1 (f p) else h) g)
      = { nodes := g.nodes.map (fun q =>
            if cond q ∧ l.any (fun p => p.1 = q.1) then (q.1, f q) else q),
          edges := g.edges } := by
  intro l
  induction l with
  | nil =>
    intro g _ _
    simp
  | cons p rest ih =>
    intro g hnd hcpl
    rw [List.map_cons, List.nodup_cons] at hnd
    by_cases hc : cond p = true
    · have hcpl' : ∀ p' ∈ rest, ∀ q ∈ (g.setAction p.1 (f p)).nodes, q.1 = p'.1 → q = p' := by
        intro p' hp' q hq hqp
        rcases Graph.mem_setAction_elim hq with ⟨hqg, _⟩ | ⟨hq1, _, _⟩
        · exact hcpl p' (List.mem_cons_of_mem _ hp') q hqg hqp
        · exfalso
          rw [hqp] at hq1
          exact hnd.1 (List.mem_map.mpr ⟨p', hp', hq1⟩)
      rw [List.foldl_cons, if_pos hc, ih (g.setAction p.1 (f p)) hnd.2 hcpl']
      unfold Graph.setAction
      simp only [List.map_map]
      congr 1
      refine List.map_congr_left fun q hq => ?_
      simp only [Function.comp_apply]
      by_cases hqp : q.1 = p.1
      · have hq_eq : q = p := hcpl p (List.mem_cons_self _ _) q hq hqp
        have hrest_any : (rest.any fun p' => decide (p'.1 = q.1)) = false := by
          rw [List.any_eq_false]
          intro p' hp'
          simp only [decide_eq_true_eq]
          intro hcontra
          rw [hq_eq] at hcontra
          exact hnd.1 (List.mem_map.mpr ⟨p', hp', hcontra⟩)
        rw [if_pos hqp]
        have houter : ¬(cond (p.1, f p) = true ∧
            (rest.any fun p' => decide (p'.1 = (p.1, f p).1)) = true) := by
          rintro ⟨_, hcontra⟩
          rw [show (p.1, f p).1 = q.1 from hqp.symm, hrest_any] at hcontra
          exact Bool.false_ne_true hcontra
        rw [if_neg houter]
        have hinner : cond q = true ∧ ((p :: rest).any fun p' => decide (p'.1 = q.1)) = true := by
          refine ⟨hq_eq ▸ hc, ?_⟩
          simp [List.any_cons, hqp]
        rw [if_pos hinner, hq_eq]
      · have hany : ((p :: rest).any fun p' => decide (p'.1 = q.1)) =
            (rest.any fun p' => decide (p'.1 = q.1)) := by
          simp only [List.any_cons]
          rw [decide_eq_false (fun h => hqp h.symm)]
          simp
        rw [if_neg hqp, hany]
    · have hcf : ¬(cond p = true) := hc
      rw [List.foldl_cons, if_neg hcf,
        ih g hnd.2 (fun p' hp' => hcpl p' (List.mem_cons_of_mem _ hp'))]
      congr 1
      refine List.map_congr_left fun q hq => ?_
      by_cases hqp : q.1 = p.1
      · have hq_eq : q = p := hcpl p (List.mem_cons_self _ _) q hq hqp
        have hqc : ¬(cond q = true) := by rw [hq_eq]; exact hcf
        rw [if_neg (fun h => hqc h.1), if_neg (fun h => hqc h.1)]
      · have hany : ((p :: rest).any fun p' => decide (p'.1 = q.1)) =
            (rest.any fun p' => decide (p'.1 = q.1)) := by
          simp only [List.any_cons]
          rw [decide_eq_false (fun h => hqp h.symm)]
          simp
        rw [hany]

end Orch

namespace Orch

/-- The graph after one scheduling pass: every eligible action set RUNNING,
everything else untouched. -/
def runAllGraph (g0 : Graph) : Graph :=
  { nodes := g0.nodes.map (fun q =>
      if eligibleB g0 q then (q.1, q.2.setState .RUNNING) else q),
    edges := g0.edges }

/-- The publications of one scheduling pass, in node-iteration order. -/
def passEvents (g0 : Graph) : List Event :=
  g0.nodes.filterMap (fun p => if eligibleB g0 p then publishEvent p.2 else none)

theorem Action.setState_state (a : Action) (s : ActionState) : (a.setState s).state = s := by
  cases a <;> rfl

theorem Action.setState_isRx (a : Action) (s : ActionState) : (a.setState s).isRx = a.isRx := by
  cases a <;> rfl

theorem process_pass_eq (g0 : Graph) (hrx : ∀ p ∈ g0.nodes, p.2.isRx = true)
    (hnd : (g0.nodes.map (·.1)).Nodup) :
    process_pass g0 = .ok (runAllGraph g0, passEvents g0,
      g0.nodes.any (fun p => eligibleB g0 p)) := by
  unfold process_pass
  rw [process_pass_aux_eq g0 g0.nodes hrx g0 [] false]
  rw [foldl_update_spec (eligibleB g0) (fun p => p.2.setState .RUNNING) g0.nodes g0 hnd
    (coupling_of_nodup hnd)]
  have hmap : ∀ q ∈ g0.nodes,
      (if eligibleB g0 q = true ∧ (g0.nodes.any fun p => decide (p.1 = q.1)) = true
       then (q.1, q.2.setState .RUNNING) else q)
      = (if eligibleB g0 q = true then (q.1, q.2.setState .RUNNING) else q) := by
    intro q hq
    by_cases hc : eligibleB g0 q = true
    · rw [if_pos ⟨hc, List.any_eq_true.mpr ⟨q, hq, by simp⟩⟩, if_pos hc]
    · rw [if_neg (fun h => hc h.1), if_neg hc]
  unfold runAllGraph passEvents
  rw [List.map_congr_left hmap]
  simp

theorem runAllGraph_outDeg (g0 : Graph) (u : Nat) :
    (runAllGraph g0).outDeg u = g0.outDeg u := rfl

theorem runAllGraph_no_eligible (g0 : Graph) :
    ∀ q ∈ (runAllGraph g0).nodes, eligibleB (runAllGraph g0) q = false := by
  intro q hq
  obtain ⟨p, hp, hmap⟩ := List.mem_map.mp hq
  by_cases hc : eligibleB g0 p = true
  · rw [if_pos hc] at hmap
    simp only [eligibleB, decide_eq_false_iff_not]
    rintro ⟨_, hst⟩
    rw [← hmap] at hst
    simp [Action.setState_state] at hst
  · rw [if_neg hc] at hmap
    subst hmap
    simp only [eligibleB, decide_eq_false_iff_not]
    rintro ⟨hd, hst⟩
    rw [runAllGraph_outDeg] at hd
    exact hc (by simp only [eligibleB, decide_eq_true_eq]; exact ⟨hd, hst⟩)

theorem runAllGraph_id_of_no_eligible (g0 : Graph)
    (h : ∀ q ∈ g0.nodes, eligibleB g0 q = false) : runAllGraph g0 = g0 := by
  obtain ⟨n, e⟩ := g0
  unfold runAllGraph
  congr 1
  have hpt : ∀ q ∈ n, (if eligibleB ⟨n, e⟩ q then (q.1, q.2.setState .RUNNING) else q) = q := by
    intro q hq
    rw [if_neg (by rw [h q hq]; simp)]
  rw [List.map_congr_left hpt]
  simp

theorem passEvents_nil_of_no_eligible (g0 : Graph)
    (h : ∀ q ∈ g0.nodes, eligibleB g0 q = false) : passEvents g0 = [] := by
  unfold passEvents
  rw [List.filterMap_eq_nil_iff]
  intro p hp
  rw [if_neg (by rw [h p hp]; simp)]

theorem runAllGraph_rx (g0 : Graph) (hrx : ∀ p ∈ g0.nodes, p.2.isRx = true) :
    ∀ p ∈ (runAllGraph g0).nodes, p.2.isRx = true := by
  intro p hp
  obtain ⟨q, hq, hmap⟩ := List.mem_map.mp hp
  by_cases hc : eligibleB g0 q = true
  · rw [if_pos hc] at hmap
    rw [← hmap]
    simp [Action.setState_isRx]
    exact hrx q hq
  · rw [if_neg hc] at hmap
    exact hmap ▸ hrx q hq

theorem runAllGraph_ids (g0 : Graph) : (runAllGraph g0).ids = g0.ids := by
  unfold runAllGraph Graph.ids
  simp only [List.map_map]
  refine List.map_congr_left fun q _ => ?_
  by_cases hc : eligibleB g0 q = true
  · simp [Function.comp, hc]
  · simp [Function.comp, hc]

theorem runAllGraph_nodup (g0 : Graph) (hnd : (g0.nodes.map (·.1)).Nodup) :
    ((runAllGraph g0).nodes.map (·.1)).Nodup := by
  have h := runAllGraph_ids g0
  unfold Graph.ids at h
  rw [h]
  exact hnd

theorem process_loop_char : ∀ (fuel : Nat) (g0 : Graph) (res : Graph × List Event),
    (∀ p ∈ g0.nodes, p.2.isRx = true) → (g0.nodes.map (·.1)).Nodup →
    process_loop fuel g0 = .ok res → res = (runAllGraph g0, passEvents g0) := by
  intro fuel
  induction fuel with
  | zero => intro g0 res _ _ h; exact absurd h (by simp [process_loop])
  | succ fuel ih =>
    intro g0 res hrx hnd h
    rw [process_loop, process_pass_eq g0 hrx hnd] at h
    by_cases hany : (g0.nodes.any fun p => eligibleB g0 p) = true
    · rw [hany] at h
      simp only at h
      set g1 := runAllGraph g0 with hg1
      match hrec : process_loop fuel g1 with
      | .error e => rw [hrec] at h; simp at h
      | .ok res' =>
        rw [hrec] at h
        simp only at h
        have hres' := ih g1 res' (runAllGraph_rx g0 hrx) (runAllGraph_nodup g0 hnd) hrec
        rw [runAllGraph_id_of_no_eligible g1 (runAllGraph_no_eligible g0),
            passEvents_nil_of_no_eligible g1 (runAllGraph_no_eligible g0)] at hres'
        rw [hres'] at h
        simp only [Except.ok.injEq] at h
        rw [← h]
        simp
    · rw [Bool.not_eq_true] at hany
      rw [hany] at h
      simp only [Except.ok.injEq] at h
      exact h.symm

theorem process_loop_ok (fuel : Nat) (g0 : Graph) (h2 : 2 ≤ fuel)
    (hrx : ∀ p ∈ g0.nodes, p.2.isRx = true) (hnd : (g0.nodes.map (·.1)).Nodup) :
    process_loop fuel g0 = .ok (runAllGraph g0, passEvents g0) := by
  obtain ⟨f, rfl⟩ : ∃ f, fuel = f + 2 := ⟨fuel - 2, by omega⟩
  rw [process_loop, process_pass_eq g0 hrx hnd]
  by_cases hany : (g0.nodes.any fun p => eligibleB g0 p) = true
  · rw [hany]
    simp only
    rw [process_loop, process_pass_eq _ (runAllGraph_rx g0 hrx) (runAllGraph_nodup g0 hnd)]
    have hne : ((runAllGraph g0).nodes.any fun p => eligibleB (runAllGraph g0) p) = false := by
      rw [List.any_eq_false]
      intro p hp
      rw [runAllGraph_no_eligible g0 p hp]
      simp
    rw [hne]
    simp only
    rw [runAllGraph_id_of_no_eligible _ (runAllGraph_no_eligible g0),
        passEvents_nil_of_no_eligible _ (runAllGraph_no_eligible g0)]
    simp
  · rw [Bool.not_eq_true] at hany
    rw [hany]

end Orch

namespace Orch

/-! ## The timer path is inoperative (claims C6, C7) -/

theorem foldl_self {α β : Type} (f : β → α → β) (hf : ∀ b a, f b a = b) :
    ∀ (l : List α) (b : β), l.foldl f b = b := by
  intro l
  induction l with
  | nil => intro b; rfl
  | cons a l ih => intro b; rw [List.foldl_cons, hf]; exact ih b

theorem collect_timers_nil (cfg : Config) : collect_timers cfg = [] := by
  unfold collect_timers
  apply foldl_self
  intro b m
  apply foldl_self
  intro b' c
  cases c <;> rfl

/-- With `simulator_time` set, `__add_pending_timers_until` never schedules an
action and never raises `StepTooLarge`: the list it iterates is always empty. -/
theorem add_action_and_effects_nil (cfg : Config) (fuel : Nat) (g : Graph) (nid : Nat) :
    add_action_and_effects cfg fuel g nid [] = .ok (g, nid) := by
  cases fuel <;> rfl

theorem expected_timer_actions_nil (last_time t : Time) :
    expected_timer_actions [] last_time t = .ok [] := rfl

theorem add_pending_timers_until_noop (cfg : Config) (fuel : Nat) (g : Graph)
    (next_id : Nat) (st t : Time) :
    add_pending_timers_until cfg fuel g next_id (some st) t = .ok (g, next_id) := by
  unfold add_pending_timers_until
  dsimp only
  rw [collect_timers_nil, expected_timer_actions_nil]
  simp only [List.map_nil]
  exact add_action_and_effects_nil cfg fuel g next_id

end Orch

namespace Orch

/-! ## Claim C10: the first time offer is fatal -/

/-- **C10.** On a freshly constructed orchestrator (`simulator_time = None`,
empty graph), `wait_until_time_publish_allowed(t)` raises a `RuntimeError`
instead of registering the offer and completing its future: the idle graph
takes the immediate-grant path (lines 144-146), which calls
`__request_next_input` and then `__add_pending_timers_until`, which requires
`simulator_time` to be initialized (lines 163-164). -/
theorem C10_first_time_offer_raises (cfg : Config) (fuel : Nat) (t : Time) :
    wait_until_time_publish_allowed cfg fuel (initState none) t
      = .error .simTimeUnset := rfl

/-! ## Claims C6 and C7: the timer path is dead code -/

/-- One node with a single 100 ms (10^8 ns) timer; spec scenarios 3 and 4. -/
def timerCfg : Config :=
  ⟨[⟨"timer_node", [(.timerInput 100000000, [.statusPublish])]⟩], []⟩

/-- **C6** (code bug).  Stepping time from 0 to 100 ms with one 100 ms timer:
the claim (and spec scenario 4) expects exactly one
`TimerAction(timestamp = 100 ms, state = READY)` to be scheduled, but the
source's collection loop never appends to `timers` (orchestrator.py:173-177,
see `collect_timers`), so the time offer is granted with *no* timer action
inserted; the intended collection (spec design note (b)) produces exactly the
claimed action. -/
theorem C6_timer_once_code_bug :
    wait_until_time_publish_allowed timerCfg 10 (initState (some 0)) 100000000
      = .ok ({ next_input := none, simulator_time := some 100000000,
               graph := Graph.empty, next_id := 0 }, [.grantedTime 100000000])
    ∧ expected_timer_actions (collect_timers_spec timerCfg) 0 100000000
      = .ok [Action.timer .READY "timer_node" 100000000 (.timerInput 100000000) 100000000] :=
  ⟨rfl, rfl⟩

/-- **C7** (code bug).  Offering time 250 ms at `simulator_time = 0` with one
100 ms timer: the claim (and spec scenario 3) expects the `StepTooLarge`
`RuntimeError`, but because the collected timer list is always empty the fire
loop (orchestrator.py:181-192) never runs and the offer is granted without any
error; on the intended collection the same fire computation does raise
`StepTooLarge`. -/
theorem C7_step_too_large_code_bug :
    wait_until_time_publish_allowed timerCfg 10 (initState (some 0)) 250000000
      = .ok ({ next_input := none, simulator_time := some 250000000,
               graph := Graph.empty, next_id := 0 }, [.grantedTime 250000000])
    ∧ expected_timer_actions (collect_timers_spec timerCfg) 0 250000000
      = .error .stepTooLarge :=
  ⟨rfl, rfl⟩

end Orch

namespace Orch

/-! ## Claim C9: unmatched messages -/

theorem find_running_action_aux_not_found (cfg : Config) (topic : TopicName) :
    ∀ (l : List (Nat × Action)),
    (∀ p ∈ l, p.2.state = .RUNNING →
      ∃ m, node_model_by_name cfg p.2.node = some m ∧
        Effect.topicPublish topic ∉ m.effects_for_input p.2.cause) →
    find_running_action_aux cfg topic l = .error .actionNotFound := by
  intro l
  induction l with
  | nil => intro _; rfl
  | cons p rest ih =>
    intro h
    unfold find_running_action_aux
    by_cases hr : p.2.state = .RUNNING
    · rw [if_pos hr]
      obtain ⟨m, hm, hnot⟩ := h p (List.mem_cons_self _ _) hr
      rw [hm]
      simp only
      rw [if_neg (by simpa using hnot)]
      exact ih (fun q hq => h q (List.mem_cons_of_mem _ hq))
    · rw [if_neg hr]
      exact ih (fun q hq => h q (List.mem_cons_of_mem _ hq))

theorem find_running_action_status_aux_not_found (cfg : Config) (n : NodeName) :
    ∀ (l : List (Nat × Action)),
    (∀ p ∈ l, p.2.state = .RUNNING → p.2.node = n →
      ∃ m, node_model_by_name cfg p.2.node = some m ∧
        Effect.statusPublish ∉ m.effects_for_input p.2.cause) →
    find_running_action_status_aux cfg n l = .error .actionNotFound := by
  intro l
  induction l with
  | nil => intro _; rfl
  | cons p rest ih =>
    intro h
    unfold find_running_action_status_aux
    by_cases hr : p.2.state = .RUNNING ∧ p.2.node = n
    · rw [if_pos hr]
      obtain ⟨m, hm, hnot⟩ := h p (List.mem_cons_self _ _) hr.1 hr.2
      rw [hm]
      simp only
      rw [if_neg (by simpa using hnot)]
      exact ih (fun q hq => h q (List.mem_cons_of_mem _ hq))
    · rw [if_neg hr]
      exact ih (fun q hq => h q (List.mem_cons_of_mem _ hq))

/-- **C9** (amended).  A topic message other than on `"clock"` that matches no
RUNNING action (at modelled nodes) and is not in the external-input set raises
`ActionNotFound`, and a status message that matches no RUNNING action with a
`StatusPublish` effect at the named node raises `ActionNotFound`; neither is
silently accepted.  (Messages on the topic `"clock"` are excepted: the callback
ignores them, lines 443-444 — see the counterexample.) -/
theorem C9_unmatched_messages_fatal (cfg : Config) (fuel : Nat) (s : OState) :
    (∀ (topic : TopicName) (msg : Msg), topic ≠ "clock" →
      topic ∉ cfg.external_input_topics →
      (∀ p ∈ s.graph.nodes, p.2.state = .RUNNING →
        ∃ m, node_model_by_name cfg p.2.node = some m ∧
          Effect.topicPublish topic ∉ m.effects_for_input p.2.cause) →
      interception_subscription_callback cfg fuel s topic msg = .error .actionNotFound)
    ∧ (∀ n : NodeName,
      (∀ p ∈ s.graph.nodes, p.2.state = .RUNNING → p.2.node = n →
        ∃ m, node_model_by_name cfg p.2.node = some m ∧
          Effect.statusPublish ∉ m.effects_for_input p.2.cause) →
      status_callback cfg fuel s n = .error .actionNotFound) := by
  constructor
  · intro topic msg hclock hext hnorun
    unfold interception_subscription_callback
    rw [if_neg hclock]
    have hfind : find_running_action cfg s.graph topic = .error .actionNotFound :=
      find_running_action_aux_not_found cfg topic s.graph.nodes hnorun
    rw [hfind]
    simp only
    rw [if_neg (by simpa using hext)]
  · intro n hnorun
    unfold status_callback
    have hfind : find_running_action_status cfg s.graph n = .error .actionNotFound :=
      find_running_action_status_aux_not_found cfg n s.graph.nodes hnorun
    rw [hfind]

/-! ## Demo configuration: two publishers of an unsubscribed topic -/

/-- Two nodes `NA`, `NB`, both subscribing the external topic `"/x"` and both
declaring `TopicPublish("/t")`; no node subscribes `"/t"`. -/
def demoCfg : Config :=
  ⟨[⟨"NA", [(.topicInput "/x", [.topicPublish "/t"])]⟩,
    ⟨"NB", [(.topicInput "/x", [.topicPublish "/t"])]⟩], ["/x"]⟩

/-- The state after the input offer on `"/x"` has been granted: one WAITING rx
action per subscriber, no edges. -/
def demoWaiting : OState :=
  { next_input := none, simulator_time := some 0,
    graph := { nodes := [(0, Action.rx .WAITING "NA" 0 (.topicInput "/x") "/x" none),
                         (1, Action.rx .WAITING "NB" 0 (.topicInput "/x") "/x" none)],
               edges := [] },
    next_id := 2 }

/-- The state the intended external delivery (C8) would produce from
`demoWaiting` after the scheduler ran: both rx actions RUNNING. -/
def demoRunning : OState :=
  { next_input := none, simulator_time := some 0,
    graph := { nodes := [(0, Action.rx .RUNNING "NA" 0 (.topicInput "/x") "/x" (some 7)),
                         (1, Action.rx .RUNNING "NB" 0 (.topicInput "/x") "/x" (some 7))],
               edges := [] },
    next_id := 2 }

/-- Counterexample to **C9** as stated: a message on the topic `"clock"`
matches no RUNNING action and is not in the configured external-input set, yet
the interception callback accepts it silently (lines 443-444) without raising
`ActionNotFound` and without changing any action. -/
theorem C9_clock_counterexample :
    ("clock" ∉ demoCfg.external_input_topics)
    ∧ (∀ p ∈ (initState (some 0)).graph.nodes, p.2.state ≠ ActionState.RUNNING)
    ∧ interception_subscription_callback demoCfg 10 (initState (some 0)) "clock" 5
        = .ok (initState (some 0), []) := by
  refine ⟨by decide, ?_, rfl⟩
  intro p hp
  simp [initState, Graph.empty] at hp

/-! ## Claim C8: the external-input branch is inoperative -/

/-- **C8** (code bug).  With one WAITING rx action on the external topic
`"/x"`, the arriving external message is fatal: the callback computes the
earliest timestep by reading the `timestep` node attribute (line 481), which
the authoritative `add_node` (line 243) never sets, so the lookup raises
`KeyError` before anything is buffered.  The same state and message under the
intended delivery (minimum over the actions' own timestamps, §4.6)
buffers the payload and runs both actions.  The offer-granting step producing
the state is included to show it is reachable. -/
theorem C8_external_input_keyerror :
    wait_until_publish_allowed demoCfg 10 (initState (some 0)) "/x"
      = .ok (demoWaiting, [.grantedInput "/x"])
    ∧ interception_subscription_callback demoCfg 10 demoWaiting "/x" 7
      = .error .keyError
    ∧ interception_callback_spec demoCfg 10 demoWaiting "/x" 7
      = .ok (demoRunning,
             [.publish "NA" "/x" (some 7), .publish "NB" "/x" (some 7)]) :=
  ⟨rfl, rfl, rfl⟩

end Orch

namespace Orch

/-! ## Claim C2: concurrent RUNNING publishers of one topic -/

/-- The node model of `a` declares `TopicPublish T` among the effects of `a`'s
cause (the property `__find_running_action` tests, lines 365-369). -/
def publishes (cfg : Config) (a : Action) (T : TopicName) : Bool :=
  match node_model_by_name cfg a.node with
  | some m => Effect.topicPublish T ∈ m.effects_for_input a.cause
  | none => false

/-- Number of RUNNING actions whose node model declares `TopicPublish T`. -/
def running_publisher_count (cfg : Config) (g : Graph) (T : TopicName) : Nat :=
  (g.nodes.filter (fun p => p.2.state = .RUNNING ∧ publishes cfg p.2 T)).length

/-! ## Claim C4: the scheduling loop -/

/-- **C4.**  On a graph of rx actions with duplicate-free ids (the only graphs
the orchestrator builds), the `__process` scheduling loop with enough fuel for
one full pass plus the empty re-check: sets exactly the actions with
out-degree 0 and state READY to RUNNING, publishing each one's buffered
payload on the interception publisher of its (node, topic) in node order;
leaves every other action and all edges unchanged; and terminates with no
eligible action remaining. -/
theorem C4_process_loop_runs_ready (g0 : Graph) (fuel : Nat) (h2 : 2 ≤ fuel)
    (hrx : ∀ p ∈ g0.nodes, p.2.isRx = true)
    (hnd : (g0.nodes.map (·.1)).Nodup) :
    process_loop fuel g0 = .ok
      ({ nodes := g0.nodes.map (fun q =>
           if eligibleB g0 q then (q.1, q.2.setState .RUNNING) else q),
         edges := g0.edges },
       g0.nodes.filterMap (fun p => if eligibleB g0 p then publishEvent p.2 else none))
    ∧ (∀ p ∈ (runAllGraph g0).nodes, eligibleB (runAllGraph g0) p = false) :=
  ⟨process_loop_ok fuel g0 h2 hrx hnd, runAllGraph_no_eligible g0⟩

/-- A two-action graph exercising C4: node 0 is READY with no constraints,
node 1 is WAITING. -/
def c4Graph : Graph :=
  { nodes := [(0, Action.rx .READY "NA" 0 (.topicInput "/x") "/x" (some 7)),
              (1, Action.rx .WAITING "NB" 0 (.topicInput "/y") "/y" none)],
    edges := [] }

theorem C4_witness :
    (∀ p ∈ c4Graph.nodes, p.2.isRx = true)
    ∧ (process_loop 2 c4Graph = .ok
        ({ nodes := c4Graph.nodes.map (fun q =>
             if eligibleB c4Graph q then (q.1, q.2.setState .RUNNING) else q),
           edges := c4Graph.edges },
         c4Graph.nodes.filterMap (fun p =>
           if eligibleB c4Graph p then publishEvent p.2 else none))
       ∧ (∀ p ∈ (runAllGraph c4Graph).nodes, eligibleB (runAllGraph c4Graph) p = false)) :=
  ⟨by decide, C4_process_loop_runs_ready c4Graph 2 (by decide) (by decide) (by decide)⟩

end Orch

namespace Orch

/-! ## Claim C5: offer granting conditions -/

theorem request_next_input_clears {cfg : Config} {fuel : Nat} {x y : OState}
    {e : List Event} (h : request_next_input cfg fuel x = .ok (y, e)) :
    y.next_input = none := by
  unfold request_next_input at h
  split at h
  · split at h
    · exact absurd h (by simp)
    · split at h
      · exact absurd h (by simp)
      · simp only [Except.ok.injEq, Prod.mk.injEq] at h
        rw [← h.1]
  · split at h
    · exact absurd h (by simp)
    · simp only [Except.ok.injEq, Prod.mk.injEq] at h
      rw [← h.1]
  · exact absurd h (by simp)

/-- **C5.**  In a successful `__process` call with a pending offer, the offer
is granted (its registration cleared and its future completed) precisely when:
it is a `FutureTimestep` — always; or it is a `FutureInput topic` and no rx
action on that topic in state WAITING or READY remains in the post-loop graph
(RUNNING actions on the topic do not block granting). -/
theorem C5_grant_conditions (cfg : Config) (fuel : Nat) (s : OState)
    (ni : NextInput) (hni : s.next_input = some ni)
    (hrx : ∀ p ∈ s.graph.nodes, p.2.isRx = true)
    (hnd : (s.graph.nodes.map (·.1)).Nodup)
    (s' : OState) (evs : List Event)
    (hok : process cfg fuel s = .ok (s', evs)) :
    s'.next_input = none ↔
      ((∃ t, ni = .futureTimestep t) ∨
       (∃ topic, ni = .futureInput topic ∧
         ∀ p ∈ (runAllGraph s.graph).nodes,
           ¬((p.2.state = .READY ∨ p.2.state = .WAITING) ∧ p.2.isRxOn topic = true))) := by
  unfold process at hok
  split at hok
  · exact absurd hok (by simp)
  · rename_i g1 evs1 hloop
    have hchar := process_loop_char fuel s.graph (g1, evs1) hrx hnd hloop
    simp only [Prod.mk.injEq] at hchar
    obtain ⟨hg1, hevs1⟩ := hchar
    subst hg1
    subst hevs1
    simp only at hok
    split at hok
    · -- no pending offer: contradicts hni
      rename_i hnone
      rw [hni] at hnone
      exact absurd hnone (by simp)
    · rename_i ni' hsome
      rw [hni] at hsome
      obtain rfl : ni = ni' := by injection hsome
      split at hok
      · -- ready_for_next_input errored: impossible
        rename_i e hready
        cases ni <;> simp [ready_for_next_input] at hready
      · -- not ready: the offer stays pending
        rename_i hready
        simp only [Except.ok.injEq, Prod.mk.injEq] at hok
        obtain ⟨hs', _⟩ := hok
        cases ni with
        | futureInput topic =>
          constructor
          · intro hnone
            rw [← hs'] at hnone
            rw [hni] at hnone
            exact absurd hnone (by simp)
          · rintro (⟨t, ht⟩ | ⟨topic', heq, hall⟩)
            · exact absurd ht (by simp)
            · have htt : topic' = topic := by injection heq with h; exact h.symm
              rw [htt] at hall
              exfalso
              have hany : ((runAllGraph s.graph).nodes.any (fun p =>
                  (p.2.state = .READY ∨ p.2.state = .WAITING) ∧ p.2.isRxOn topic)) = true := by
                simpa [ready_for_next_input] using hready
              obtain ⟨p, hp, hcond⟩ := List.any_eq_true.mp hany
              simp only [decide_eq_true_eq] at hcond
              exact hall p hp hcond
        | futureTimestep t =>
          simp [ready_for_next_input] at hready
      · -- ready: the offer is granted
        rename_i hready
        split at hok
        · exact absurd hok (by simp)
        · rename_i s2 evs2 hreq
          simp only [Except.ok.injEq, Prod.mk.injEq] at hok
          obtain ⟨hs', _⟩ := hok
          constructor
          · intro _
            cases ni with
            | futureTimestep t => exact Or.inl ⟨t, rfl⟩
            | futureInput topic =>
              refine Or.inr ⟨topic, rfl, ?_⟩
              intro p hp hcond
              have hanyf : ((runAllGraph s.graph).nodes.any (fun p =>
                  (p.2.state = .READY ∨ p.2.state = .WAITING) ∧ p.2.isRxOn topic)) = false := by
                simpa [ready_for_next_input] using hready
              have := List.any_eq_false.mp hanyf p hp
              simp only [decide_eq_true_eq] at this
              exact this hcond
          · intro _
            rw [← hs']
            exact request_next_input_clears hreq

end Orch

namespace Orch

/-- A state with a pending input offer on a topic nobody subscribes or awaits. -/
def c5State : OState := { demoWaiting with next_input := some (.futureInput "/y") }

theorem C5_witness :
    c5State.next_input = some (NextInput.futureInput "/y")
    ∧ (demoWaiting.next_input = none ↔
       ((∃ t, NextInput.futureInput "/y" = NextInput.futureTimestep t) ∨
        (∃ topic, NextInput.futureInput "/y" = NextInput.futureInput topic ∧
          ∀ p ∈ (runAllGraph c5State.graph).nodes,
            ¬((p.2.state = .READY ∨ p.2.state = .WAITING) ∧ p.2.isRxOn topic = true)))) :=
  ⟨rfl, C5_grant_conditions demoCfg 10 c5State (NextInput.futureInput "/y") rfl
    (by decide) (by decide) demoWaiting [.grantedInput "/y"] rfl⟩

end Orch

namespace Orch

theorem C9_witness :
    interception_subscription_callback demoCfg 10 demoRunning "/unknown" 3
      = .error .actionNotFound
    ∧ status_callback demoCfg 10 demoWaiting "NA" = .error .actionNotFound :=
  ⟨(C9_unmatched_messages_fatal demoCfg 10 demoRunning).1 "/unknown" 3 (by decide) (by decide)
      (by intro p hp hrun; fin_cases hp <;> exact ⟨_, rfl, by decide⟩),
   (C9_unmatched_messages_fatal demoCfg 10 demoWaiting).2 "NA"
      (by intro p hp hrun hn; fin_cases hp <;> exact absurd hrun (by decide))⟩

/-! ## Graph extension by out-edges of a fresh node -/

/-- `g'` differs from `g` only by edges out of `u` whose target and type
satisfy `P`: nodes unchanged, edges with other sources untouched, and every
adjacent pair of `g` still adjacent in `g'` (possibly retyped). -/
def EdgeExtend (g' g : Graph) (u : Nat) (P : Nat → EdgeType → Prop) : Prop :=
  g'.nodes = g.nodes ∧
  (∀ e ∈ g'.edges, e ∈ g.edges ∨ (e.1 = u ∧ P e.2.1 e.2.2)) ∧
  (∀ e ∈ g.edges, e.1 ≠ u → e ∈ g'.edges) ∧
  (∀ x y, (∃ t, (x, y, t) ∈ g.edges) → ∃ t, (x, y, t) ∈ g'.edges)

theorem EdgeExtend.rfl (g : Graph) (u : Nat) (P : Nat → EdgeType → Prop) :
    EdgeExtend g g u P :=
  ⟨Eq.refl _, fun _ he => Or.inl he, fun _ he _ => he, fun _ _ h => h⟩

theorem EdgeExtend.mono {g' g : Graph} {u : Nat} {P Q : Nat → EdgeType → Prop}
    (h : EdgeExtend g' g u P) (hpq : ∀ y ty, P y ty → Q y ty) :
    EdgeExtend g' g u Q :=
  ⟨h.1, fun e he => (h.2.1 e he).imp id (fun hh => ⟨hh.1, hpq _ _ hh.2⟩), h.2.2.1, h.2.2.2⟩

theorem EdgeExtend.trans {g3 g2 g1 : Graph} {u : Nat} {P : Nat → EdgeType → Prop}
    (h12 : EdgeExtend g2 g1 u P) (h23 : EdgeExtend g3 g2 u P) :
    EdgeExtend g3 g1 u P := by
  refine ⟨h23.1.trans h12.1, ?_, ?_, ?_⟩
  · intro e he
    rcases h23.2.1 e he with h | h
    · exact h12.2.1 e h
    · exact Or.inr h
  · intro e he hne
    exact h23.2.2.1 e (h12.2.2.1 e he hne) hne
  · intro x y h
    exact h23.2.2.2 x y (h12.2.2.2 x y h)

theorem EdgeExtend.addEdge (g : Graph) (u v : Nat) (t : EdgeType) :
    EdgeExtend (g.addEdge u v t) g u (fun y ty => y = v ∧ ty = t) := by
  refine ⟨Graph.addEdge_nodes g u v t, ?_, ?_, ?_⟩
  · intro e he
    rcases Graph.mem_addEdge_elim he with h | h
    · exact Or.inl h
    · subst h
      exact Or.inr ⟨Eq.refl _, Eq.refl _, Eq.refl _⟩
  · intro e he hne
    exact Graph.mem_addEdge_of_ne_src he hne
  · intro x y h
    exact Graph.hasPair_addEdge u v t h

theorem add_same_node_edges_extend (node_id : Nat) (nm : NodeName) :
    ∀ (l : List (Nat × Action)) (g : Graph),
    EdgeExtend (add_same_node_edges node_id nm l g) g node_id
      (fun y ty => ty = .SAME_NODE ∧ ∃ p ∈ l, y = p.1 ∧ p.1 ≠ node_id ∧ p.2.node = nm) := by
  intro l
  induction l with
  | nil => intro g; exact EdgeExtend.rfl _ _ _
  | cons p rest ih =>
    intro g
    unfold add_same_node_edges
    by_cases hc : p.2.node = nm ∧ p.1 ≠ node_id
    · rw [if_pos hc]
      refine EdgeExtend.trans ((EdgeExtend.addEdge g node_id p.1 .SAME_NODE).mono ?_)
        ((ih _).mono ?_)
      · rintro y ty ⟨rfl, rfl⟩
        exact ⟨Eq.refl _, p, List.mem_cons_self _ _, Eq.refl _, hc.2, hc.1⟩
      · rintro y ty ⟨hty, q, hq, hrest⟩
        exact ⟨hty, q, List.mem_cons_of_mem _ hq, hrest⟩
    · rw [if_neg hc]
      refine (ih g).mono ?_
      rintro y ty ⟨hty, q, hq, hrest⟩
      exact ⟨hty, q, List.mem_cons_of_mem _ hq, hrest⟩

theorem add_same_topic_edges_for_extend (cid : Nat) (T : TopicName) :
    ∀ (l : List (Nat × Action)) (g : Graph),
    EdgeExtend (add_same_topic_edges_for cid T l g) g cid
      (fun y ty => ty = .SAME_TOPIC ∧ ∃ p ∈ l, y = p.1 ∧ p.2.isRxOn T = true) := by
  intro l
  induction l with
  | nil => intro g; exact EdgeExtend.rfl _ _ _
  | cons p rest ih =>
    intro g
    unfold add_same_topic_edges_for
    by_cases hc : p.2.isRxOn T = true
    · rw [if_pos hc]
      refine EdgeExtend.trans ((EdgeExtend.addEdge g cid p.1 .SAME_TOPIC).mono ?_)
        ((ih _).mono ?_)
      · rintro y ty ⟨rfl, rfl⟩
        exact ⟨Eq.refl _, p, List.mem_cons_self _ _, Eq.refl _, hc⟩
      · rintro y ty ⟨hty, q, hq, hrest⟩
        exact ⟨hty, q, List.mem_cons_of_mem _ hq, hrest⟩
    · rw [if_neg hc]
      refine (ih g).mono ?_
      rintro y ty ⟨hty, q, hq, hrest⟩
      exact ⟨hty, q, List.mem_cons_of_mem _ hq, hrest⟩

theorem add_same_topic_edges_extend (cid : Nat) :
    ∀ (effs : List Effect) (g : Graph),
    EdgeExtend (add_same_topic_edges cid effs g) g cid
      (fun y ty => ty = .SAME_TOPIC ∧ ∃ T, Effect.topicPublish T ∈ effs ∧
        ∃ p ∈ g.nodes, y = p.1 ∧ p.2.isRxOn T = true) := by
  intro effs
  induction effs with
  | nil => intro g; exact EdgeExtend.rfl _ _ _
  | cons eff rest ih =>
    intro g
    match eff with
    | .topicPublish T =>
      unfold add_same_topic_edges
      have h1 := (add_same_topic_edges_for_extend cid T g.nodes g).mono
        (Q := fun y ty => ty = .SAME_TOPIC ∧ ∃ T', Effect.topicPublish T' ∈ (Effect.topicPublish T) :: rest ∧
          ∃ p ∈ g.nodes, y = p.1 ∧ p.2.isRxOn T' = true)
        (by rintro y ty ⟨hty, p, hp, hy, hrx⟩
            exact ⟨hty, T, List.mem_cons_self _ _, p, hp, hy, hrx⟩)
      have hnodes : (add_same_topic_edges_for cid T g.nodes g).nodes = g.nodes :=
        (add_same_topic_edges_for_extend cid T g.nodes g).1
      have h2 := (ih (add_same_topic_edges_for cid T g.nodes g)).mono
        (Q := fun y ty => ty = .SAME_TOPIC ∧ ∃ T', Effect.topicPublish T' ∈ (Effect.topicPublish T) :: rest ∧
          ∃ p ∈ g.nodes, y = p.1 ∧ p.2.isRxOn T' = true)
        (by rintro y ty ⟨hty, T', hT', p, hp, hy, hrx⟩
            rw [hnodes] at hp
            exact ⟨hty, T', List.mem_cons_of_mem _ hT', p, hp, hy, hrx⟩)
      exact EdgeExtend.trans h1 h2
    | .statusPublish =>
      unfold add_same_topic_edges
      refine (ih g).mono ?_
      rintro y ty ⟨hty, T', hT', hrest⟩
      exact ⟨hty, T', List.mem_cons_of_mem _ hT', hrest⟩
    | .serviceCall sv =>
      unfold add_same_topic_edges
      refine (ih g).mono ?_
      rintro y ty ⟨hty, T', hT', hrest⟩
      exact ⟨hty, T', List.mem_cons_of_mem _ hT', hrest⟩

end Orch

namespace Orch

theorem add_same_node_edges_mem (node_id : Nat) (nm : NodeName) :
    ∀ (l : List (Nat × Action)) (g : Graph) (p : Nat × Action), p ∈ l →
    p.2.node = nm → p.1 ≠ node_id →
    ∃ t, (node_id, p.1, t) ∈ (add_same_node_edges node_id nm l g).edges := by
  intro l
  induction l with
  | nil => intro g p hp; cases hp
  | cons q rest ih =>
    intro g p hp hnm hne
    unfold add_same_node_edges
    rcases List.mem_cons.mp hp with rfl | hp'
    · rw [if_pos ⟨hnm, hne⟩]
      exact (add_same_node_edges_extend node_id nm rest _).2.2.2 node_id p.1
        ⟨.SAME_NODE, Graph.mem_addEdge_self _ _ _⟩
    · by_cases hc : q.2.node = nm ∧ q.1 ≠ node_id
      · rw [if_pos hc]; exact ih _ p hp' hnm hne
      · rw [if_neg hc]; exact ih _ p hp' hnm hne

theorem add_same_topic_edges_for_mem (cid : Nat) (T : TopicName) :
    ∀ (l : List (Nat × Action)) (g : Graph) (p : Nat × Action), p ∈ l →
    p.2.isRxOn T = true →
    ∃ t, (cid, p.1, t) ∈ (add_same_topic_edges_for cid T l g).edges := by
  intro l
  induction l with
  | nil => intro g p hp; cases hp
  | cons q rest ih =>
    intro g p hp hrx
    unfold add_same_topic_edges_for
    rcases List.mem_cons.mp hp with rfl | hp'
    · rw [if_pos hrx]
      exact (add_same_topic_edges_for_extend cid T rest _).2.2.2 cid p.1
        ⟨.SAME_TOPIC, Graph.mem_addEdge_self _ _ _⟩
    · by_cases hc : q.2.isRxOn T = true
      · rw [if_pos hc]; exact ih _ p hp' hrx
      · rw [if_neg hc]; exact ih _ p hp' hrx

theorem add_same_topic_edges_mem (cid : Nat) :
    ∀ (effs : List Effect) (g : Graph) (T : TopicName), Effect.topicPublish T ∈ effs →
    ∀ p ∈ g.nodes, p.2.isRxOn T = true →
    ∃ t, (cid, p.1, t) ∈ (add_same_topic_edges cid effs g).edges := by
  intro effs
  induction effs with
  | nil => intro g T hT; cases hT
  | cons eff rest ih =>
    intro g T hT p hp hrx
    rcases List.mem_cons.mp hT with heq | hT'
    · subst heq
      unfold add_same_topic_edges
      exact (add_same_topic_edges_extend cid rest _).2.2.2 cid p.1
        (add_same_topic_edges_for_mem cid T g.nodes g p hp hrx)
    · match eff with
      | .topicPublish T'' =>
        unfold add_same_topic_edges
        refine ih _ T hT' p ?_ hrx
        rw [(add_same_topic_edges_for_extend cid T'' g.nodes g).1]
        exact hp
      | .statusPublish => unfold add_same_topic_edges; exact ih g T hT' p hp hrx
      | .serviceCall sv => unfold add_same_topic_edges; exact ih g T hT' p hp hrx

end Orch

namespace Orch

/-- The per-topic union of new-edge shapes produced by one
`__add_action_and_effects` insertion of `action` at id `nid`. -/
def StepEdgeShape (g : Graph) (nid : Nat) (action : Action) (parent : Option Nat)
    (effects : List Effect) (y : Nat) (ty : EdgeType) : Prop :=
  (ty = .SAME_NODE ∧ ∃ p ∈ g.nodes ++ [(nid, action)],
      y = p.1 ∧ p.1 ≠ nid ∧ p.2.node = action.node) ∨
  (ty = .CAUSALITY ∧ ∃ pid, parent = some pid ∧ y = pid) ∨
  (ty = .SAME_TOPIC ∧ ∃ T, Effect.topicPublish T ∈ effects ∧
      ∃ p ∈ g.nodes ++ [(nid, action)], y = p.1 ∧ p.2.isRxOn T = true)

theorem add_all_effects_char (cfg : Config) (g : Graph) (nid : Nat)
    (action : Action) (parent : Option Nat) (G3 : Graph) (g' : Graph)
    (children : List Action)
    (hnodes3 : G3.nodes = g.nodes ++ [(nid, action)])
    (hE12 : EdgeExtend G3 (g.addNode nid action) nid (fun y ty =>
      (ty = .SAME_NODE ∧ ∃ p ∈ g.nodes ++ [(nid, action)],
          y = p.1 ∧ p.1 ≠ nid ∧ p.2.node = action.node) ∨
      (ty = .CAUSALITY ∧ ∃ pid, parent = some pid ∧ y = pid)))
    (hsn : ∀ p ∈ g.nodes ++ [(nid, action)], p.2.node = action.node → p.1 ≠ nid →
      ∃ t, (nid, p.1, t) ∈ G3.edges)
    (hpar : ∀ pid, parent = some pid → ∃ t, (nid, pid, t) ∈ G3.edges)
    (hall : add_all_effects_for_cause cfg G3 action.node (recomputed_cause action)
        nid action.timestamp = .ok (g', children)) :
    g'.nodes = g.nodes ++ [(nid, action)] ∧
    ∃ model, node_model_by_name cfg action.node = some model ∧
      recomputed_cause action ∈ model.get_possible_inputs ∧
      children = child_actions cfg action.timestamp
        (model.effects_for_input (recomputed_cause action)) ∧
      EdgeExtend g' (g.addNode nid action) nid
        (StepEdgeShape g nid action parent
          (model.effects_for_input (recomputed_cause action))) ∧
      (∀ p ∈ g.nodes ++ [(nid, action)], p.2.node = action.node → p.1 ≠ nid →
        ∃ t, (nid, p.1, t) ∈ g'.edges) ∧
      (∀ pid, parent = some pid → ∃ t, (nid, pid, t) ∈ g'.edges) ∧
      (∀ T, Effect.topicPublish T ∈ model.effects_for_input (recomputed_cause action) →
        ∀ p ∈ g.nodes ++ [(nid, action)], p.2.isRxOn T = true →
        ∃ t, (nid, p.1, t) ∈ g'.edges) := by
  unfold add_all_effects_for_cause at hall
  split at hall
  · exact absurd hall (by simp)
  · rename_i model hmodel
    split at hall
    · rename_i hcause
      simp only [Except.ok.injEq, Prod.mk.injEq] at hall
      obtain ⟨hg', hchildren⟩ := hall
      have hE3 : EdgeExtend g' G3 nid (fun y ty =>
          ty = .SAME_TOPIC ∧ ∃ T,
            Effect.topicPublish T ∈ model.effects_for_input (recomputed_cause action) ∧
            ∃ p ∈ g.nodes ++ [(nid, action)], y = p.1 ∧ p.2.isRxOn T = true) := by
        have hx := add_same_topic_edges_extend nid
          (model.effects_for_input (recomputed_cause action)) G3
        rw [hnodes3] at hx
        rw [← hg']
        exact hx
      refine ⟨?_, model, hmodel, hcause, hchildren.symm, ?_, ?_, ?_, ?_⟩
      · rw [hE3.1, hnodes3]
      · refine EdgeExtend.trans (hE12.mono ?_) (hE3.mono ?_)
        · rintro y ty (hy | hy)
          · exact Or.inl hy
          · exact Or.inr (Or.inl hy)
        · intro y ty hy
          exact Or.inr (Or.inr hy)
      · intro p hp hnm hne
        exact hE3.2.2.2 nid p.1 (hsn p hp hnm hne)
      · intro pid hpid
        exact hE3.2.2.2 nid pid (hpar pid hpid)
      · intro T hT p hp hrx
        rw [← hg']
        refine add_same_topic_edges_mem nid _ G3 T hT p ?_ hrx
        rw [hnodes3]
        exact hp
    · exact absurd hall (by simp)

theorem add_action_and_effects_step_char (cfg : Config) (g : Graph) (nid : Nat)
    (action : Action) (parent : Option Nat) (g' : Graph) (nid_out : Nat)
    (children : List Action)
    (h : add_action_and_effects_step cfg g nid action parent
         = .ok (g', nid_out, children)) :
    nid_out = nid ∧
    g'.nodes = g.nodes ++ [(nid, action)] ∧
    ∃ model, node_model_by_name cfg action.node = some model ∧
      recomputed_cause action ∈ model.get_possible_inputs ∧
      children = child_actions cfg action.timestamp
        (model.effects_for_input (recomputed_cause action)) ∧
      EdgeExtend g' (g.addNode nid action) nid
        (StepEdgeShape g nid action parent
          (model.effects_for_input (recomputed_cause action))) ∧
      (∀ p ∈ g.nodes ++ [(nid, action)], p.2.node = action.node → p.1 ≠ nid →
        ∃ t, (nid, p.1, t) ∈ g'.edges) ∧
      (∀ pid, parent = some pid → ∃ t, (nid, pid, t) ∈ g'.edges) ∧
      (∀ T, Effect.topicPublish T ∈ model.effects_for_input (recomputed_cause action) →
        ∀ p ∈ g.nodes ++ [(nid, action)], p.2.isRxOn T = true →
        ∃ t, (nid, p.1, t) ∈ g'.edges) := by
  have hE1 : EdgeExtend (add_same_node_edges nid action.node
      (g.addNode nid action).nodes (g.addNode nid action)) (g.addNode nid action) nid
      (fun y ty => ty = .SAME_NODE ∧ ∃ p ∈ g.nodes ++ [(nid, action)],
        y = p.1 ∧ p.1 ≠ nid ∧ p.2.node = action.node) :=
    add_same_node_edges_extend nid action.node (g.addNode nid action).nodes (g.addNode nid action)
  have hsn2 : ∀ p ∈ g.nodes ++ [(nid, action)], p.2.node = action.node → p.1 ≠ nid →
      ∃ t, (nid, p.1, t) ∈ (add_same_node_edges nid action.node
        (g.addNode nid action).nodes (g.addNode nid action)).edges := by
    intro p hp hnm hne
    exact add_same_node_edges_mem nid action.node (g.addNode nid action).nodes
      (g.addNode nid action) p hp hnm hne
  cases parent with
  | none =>
    unfold add_action_and_effects_step at h
    dsimp only at h
    split at h
    · exact absurd h (by simp)
    · rename_i g4 children4 hall
      simp only [Except.ok.injEq, Prod.mk.injEq] at h
      obtain ⟨hg4, hnidout, hchildren4⟩ := h
      subst hg4
      subst hchildren4
      have := add_all_effects_char cfg g nid action none _ g4 children4
        hE1.1 (hE1.mono (fun y ty hy => Or.inl hy)) hsn2
        (by intro pid hpid; cases hpid) hall
      exact ⟨hnidout.symm, this.1, this.2⟩
  | some pp =>
    unfold add_action_and_effects_step at h
    dsimp only at h
    split at h
    · exact absurd h (by simp)
    · rename_i g4 children4 hall
      simp only [Except.ok.injEq, Prod.mk.injEq] at h
      obtain ⟨hg4, hnidout, hchildren4⟩ := h
      subst hg4
      subst hchildren4
      have hE2 : EdgeExtend ((add_same_node_edges nid action.node
          (g.addNode nid action).nodes (g.addNode nid action)).addEdge nid pp .CAUSALITY)
          (add_same_node_edges nid action.node
            (g.addNode nid action).nodes (g.addNode nid action)) nid
          (fun y ty => ty = .CAUSALITY ∧ ∃ pid', some pp = some pid' ∧ y = pid') :=
        (EdgeExtend.addEdge _ nid pp .CAUSALITY).mono
          (fun y ty hh => ⟨hh.2, pp, Eq.refl _, hh.1⟩)
      have hE12 := EdgeExtend.trans
        (hE1.mono (fun y ty hy => Or.inl hy))
        (hE2.mono (fun y ty hy => Or.inr hy))
      have := add_all_effects_char cfg g nid action (some pp) _ g4 children4
        (by rw [hE2.1, hE1.1]; rfl) hE12
        (by intro p hp hnm hne
            exact hE2.2.2.2 nid p.1 (hsn2 p hp hnm hne))
        (by rintro pid' hpid'
            obtain rfl : pp = pid' := by injection hpid'
            exact ⟨.CAUSALITY, Graph.mem_addEdge_self _ _ _⟩) hall
      exact ⟨hnidout.symm, this.1, this.2⟩

end Orch

namespace Orch

/-! ## Structural invariants of the constraint graph -/

/-- Structural well-formedness of the orchestrator graph relative to the id
counter: fresh ids, duplicate-free ids, edges between present nodes, all
actions rx with consistent cause, RUNNING actions have out-degree zero, any
two actions at one node are connected, sources of CAUSALITY edges are WAITING,
and each node has at most one CAUSALITY out-edge target. -/
structure GInv (g : Graph) (nid : Nat) : Prop where
  nodesLT : ∀ p ∈ g.nodes, p.1 < nid
  nodup : (g.nodes.map (·.1)).Nodup
  edgesValid : ∀ e ∈ g.edges, (∃ a, (e.1, a) ∈ g.nodes) ∧ (∃ a, (e.2.1, a) ∈ g.nodes)
  allRx : ∀ p ∈ g.nodes, p.2.isRx = true
  causeCons : ∀ p ∈ g.nodes, ∀ st n ts c top d,
      p.2 = Action.rx st n ts c top d → c = .topicInput top
  runOut : ∀ p ∈ g.nodes, p.2.state = .RUNNING → g.outDeg p.1 = 0
  samePaired : ∀ p ∈ g.nodes, ∀ q ∈ g.nodes, p.1 ≠ q.1 → p.2.node = q.2.node →
      (∃ t, (p.1, q.1, t) ∈ g.edges) ∨ (∃ t, (q.1, p.1, t) ∈ g.edges)

/-- An action whose own model republishes the action's topic from the action's
cause: inserting it creates an identical child for the same model, so
`__add_action_and_effects` recurses forever and never returns. -/
def SelfFeeding (cfg : Config) (a : Action) : Prop :=
  ∃ m T, recomputed_cause a = .topicInput T ∧
    node_model_by_name cfg a.node = some m ∧
    Cause.topicInput T ∈ m.get_possible_inputs ∧
    Effect.topicPublish T ∈ m.effects_for_input (.topicInput T)

theorem node_model_by_name_mem {cfg : Config} {n : NodeName} {m : NodeModel}
    (h : node_model_by_name cfg n = some m) : m ∈ cfg.node_models :=
  List.mem_of_find?_eq_some h

theorem Action.isRxOn_rx {st : ActionState} {n : NodeName} {ts : Time} {c : Cause}
    {top T : TopicName} {d : Option Msg}
    (h : (Action.rx st n ts c top d).isRxOn T = true) : top = T := by
  simpa [Action.isRxOn] using h

theorem child_actions_shape (cfg : Config) (time : Time) :
    ∀ (effs : List Effect), ∀ c ∈ child_actions cfg time effs,
    ∃ n top, c = Action.rx .WAITING n time (.topicInput top) top none := by
  intro effs
  induction effs with
  | nil => intro c hc; cases hc
  | cons eff rest ih =>
    intro c hc
    match eff with
    | .topicPublish T =>
      unfold child_actions at hc
      rcases List.mem_append.mp hc with hc1 | hc2
      · unfold child_actions_for_topic at hc1
        obtain ⟨node, _, hsome⟩ := List.mem_filterMap.mp hc1
        split at hsome
        · exact ⟨node.get_name, T, (Option.some.injEq _ _ ▸ hsome).symm⟩
        · cases hsome
      · exact ih c hc2
    | .statusPublish => unfold child_actions at hc; exact ih c hc
    | .serviceCall sv => unfold child_actions at hc; exact ih c hc

theorem node_model_by_name_get_name {cfg : Config} {n : NodeName} {m : NodeModel}
    (h : node_model_by_name cfg n = some m) : m.get_name = n := by
  have := List.find?_some h
  simpa using this

theorem mem_child_actions_of_publish (cfg : Config) (time : Time) {T : TopicName}
    {c : Action} (hc : c ∈ child_actions_for_topic cfg time T) :
    ∀ (effs : List Effect), Effect.topicPublish T ∈ effs →
      c ∈ child_actions cfg time effs := by
  intro effs
  induction effs with
  | nil => intro h; cases h
  | cons eff rest ih =>
    intro h
    rcases List.mem_cons.mp h with heq | hmem
    · rw [← heq]
      unfold child_actions
      exact List.mem_append.mpr (Or.inl hc)
    · match eff with
      | .topicPublish t =>
          unfold child_actions
          exact List.mem_append.mpr (Or.inr (ih hmem))
      | .statusPublish => unfold child_actions; exact ih hmem
      | .serviceCall sv => unfold child_actions; exact ih hmem

theorem self_child_mem {cfg : Config} {m : NodeModel} {n : NodeName} {T : TopicName}
    (time : Time) (hfind : node_model_by_name cfg n = some m)
    (hin : Cause.topicInput T ∈ m.get_possible_inputs) :
    Action.rx .WAITING m.get_name time (.topicInput T) T none
      ∈ child_actions_for_topic cfg time T := by
  unfold child_actions_for_topic
  refine List.mem_filterMap.mpr ⟨m, node_model_by_name_mem hfind, ?_⟩
  rw [if_pos hin]

/-- Inserting a worklist that contains a self-feeding item never succeeds:
the recursion regenerates an identical self-feeding child at every level. -/
theorem aae_selfFeeding_no_ok (cfg : Config) :
    ∀ (fuel : Nat) (g : Graph) (nid : Nat) (L : List (Action × Option Nat)),
    (∃ ap ∈ L, SelfFeeding cfg ap.1) →
    ∀ r, add_action_and_effects cfg fuel g nid L ≠ .ok r := by
  intro fuel
  induction fuel with
  | zero =>
    intro g nid L hex r h
    obtain ⟨ap, hap, _⟩ := hex
    match L, hap with
    | _ :: _, _ =>
      simp only [add_action_and_effects] at h
      cases h
  | succ fuel ih =>
    intro g nid L hex r h
    obtain ⟨ap, hap, hsf⟩ := hex
    match L with
    | (a, par) :: rest =>
      simp only [add_action_and_effects] at h
      match hstep : add_action_and_effects_step cfg g nid a par with
      | .error e => rw [hstep] at h; cases h
      | .ok (g2, node_id, children) =>
        rw [hstep] at h
        rcases List.mem_cons.mp hap with heq | hmem
        · -- the head is self-feeding: it regenerates a self-feeding child
          rw [heq] at hsf
          have hsfa : SelfFeeding cfg a := hsf
          obtain ⟨m, T, hrc, hnm, hin, hpub⟩ := hsfa
          obtain ⟨-, -, model, hmodel, -, hch, -, -, -, -⟩ :=
            add_action_and_effects_step_char cfg g nid a par g2 node_id children hstep
          have hmm : model = m := Option.some.inj (hmodel.symm.trans hnm)
          have hcmem : Action.rx .WAITING m.get_name a.timestamp (.topicInput T) T none
              ∈ children := by
            rw [hch, hmm, hrc]
            exact mem_child_actions_of_publish cfg a.timestamp
              (self_child_mem a.timestamp hnm hin) _ hpub
          refine ih g2 (nid+1) _ ⟨(Action.rx .WAITING m.get_name a.timestamp
            (.topicInput T) T none, some node_id), ?_, ?_⟩ r h
          · exact List.mem_append.mpr (Or.inl (List.mem_map.mpr ⟨_, hcmem, rfl⟩))
          · refine ⟨m, T, rfl, ?_, hin, hpub⟩
            have : (Action.rx ActionState.WAITING m.get_name a.timestamp
                (Cause.topicInput T) T none).node = m.get_name := rfl
            rw [this, node_model_by_name_get_name hnm]
            exact hnm
        · exact ih g2 (nid+1) _ ⟨ap, List.mem_append.mpr (Or.inr hmem), hsf⟩ r h

theorem step_preserves_GInv (cfg : Config) (g : Graph) (nid : Nat) (action : Action)
    (parent : Option Nat) (g' : Graph) (nid_out : Nat) (children : List Action)
    (hg : GInv g nid)
    (hact : ∃ n ts top, action = Action.rx .WAITING n ts (.topicInput top) top none)
    (hpar : ∀ pid', parent = some pid' → ∃ a, (pid', a) ∈ g.nodes)
    (h : add_action_and_effects_step cfg g nid action parent
         = .ok (g', nid_out, children)) :
    GInv g' (nid + 1) ∧
    (∀ p ∈ g.nodes, p ∈ g'.nodes) ∧
    (∀ p ∈ g'.nodes, p ∈ g.nodes ∨ (p.1 = nid ∧ p.2 = action)) ∧
    (∀ e ∈ g.edges, e ∈ g'.edges) ∧
    (∀ c ∈ children, ∃ n ts top, c = Action.rx .WAITING n ts (.topicInput top) top none) ∧
    (¬ SelfFeeding cfg action →
      (∀ e ∈ g.edges, e.2.1 < e.1) → (∀ e ∈ g'.edges, e.2.1 < e.1)) := by
  obtain ⟨hnid, hnodes, model, hmodel, hcause, hchildren, hEE, hsn, hparE, hstE⟩ :=
    add_action_and_effects_step_char cfg g nid action parent g' nid_out children h
  obtain ⟨an, ats, atop, haeq⟩ := hact
  have hwaiting : action.state = .WAITING := by rw [haeq]; rfl
  -- old edges are kept untouched
  have holdE : ∀ e ∈ g.edges, e ∈ g'.edges := by
    intro e he
    refine hEE.2.2.1 e he ?_
    intro hsrc
    have := (hg.edgesValid e he).1
    obtain ⟨a, ha⟩ := this
    have := hg.nodesLT _ ha
    omega
  -- new edges have source nid and shaped targets
  have hnewE : ∀ e ∈ g'.edges, e ∈ g.edges ∨ (e.1 = nid ∧
      StepEdgeShape g nid action parent
        (model.effects_for_input (recomputed_cause action)) e.2.1 e.2.2) :=
    hEE.2.1
  have hmemold : ∀ p ∈ g.nodes, p ∈ g'.nodes := by
    intro p hp
    rw [hnodes]
    exact List.mem_append.mpr (Or.inl hp)
  have hmemnew : (nid, action) ∈ g'.nodes := by
    rw [hnodes]
    exact List.mem_append.mpr (Or.inr (List.mem_singleton.mpr (Eq.refl _)))
  have hmemcases : ∀ p ∈ g'.nodes, p ∈ g.nodes ∨ (p.1 = nid ∧ p.2 = action) := by
    intro p hp
    rw [hnodes] at hp
    rcases List.mem_append.mp hp with h1 | h1
    · exact Or.inl h1
    · have := List.mem_singleton.mp h1
      exact Or.inr ⟨by rw [this], by rw [this]⟩
  have hnewid : ∀ p ∈ g.nodes, p.1 ≠ nid := by
    intro p hp
    have := hg.nodesLT p hp
    omega
  refine ⟨?_, hmemold, hmemcases, holdE, ?_, ?_⟩
  · refine ⟨?_, ?_, ?_, ?_, ?_, ?_, ?_⟩
    · -- nodesLT
      intro p hp
      rcases hmemcases p hp with h1 | ⟨h1, _⟩
      · have := hg.nodesLT p h1; omega
      · omega
    · -- nodup
      rw [hnodes, List.map_append]
      refine List.Nodup.append hg.nodup (List.nodup_singleton _) ?_
      intro x hx hx'
      simp only [List.map_cons, List.map_nil, List.mem_singleton] at hx'
      obtain ⟨p, hp, hpx⟩ := List.mem_map.mp hx
      have := hg.nodesLT p hp
      omega
    · -- edgesValid
      intro e he
      rcases hnewE e he with h1 | ⟨hsrc, hshape⟩
      · obtain ⟨⟨a1, ha1⟩, ⟨a2, ha2⟩⟩ := hg.edgesValid e h1
        exact ⟨⟨a1, hmemold _ ha1⟩, ⟨a2, hmemold _ ha2⟩⟩
      · refine ⟨⟨action, by rw [hsrc]; exact hmemnew⟩, ?_⟩
        rcases hshape with ⟨_, p, hp, hy, _, _⟩ | ⟨_, pid, hpid, hy⟩ | ⟨_, T, _, p, hp, hy, _⟩
        · refine ⟨p.2, ?_⟩
          rw [hy, hnodes]
          exact hp
        · obtain ⟨a, ha⟩ := hpar pid hpid
          exact ⟨a, by rw [hy]; exact hmemold _ ha⟩
        · refine ⟨p.2, ?_⟩
          rw [hy, hnodes]
          exact hp
    · -- allRx
      intro p hp
      rcases hmemcases p hp with h1 | ⟨_, h2⟩
      · exact hg.allRx p h1
      · rw [h2, haeq]; rfl
    · -- causeCons
      intro p hp st n ts c top d hpeq
      rcases hmemcases p hp with h1 | ⟨_, h2⟩
      · exact hg.causeCons p h1 st n ts c top d hpeq
      · rw [h2, haeq] at hpeq
        injection hpeq with _ _ _ hc htop _
        rw [← hc, htop]
    · -- runOut
      intro p hp hrun
      rcases hmemcases p hp with h1 | ⟨h1, h2⟩
      · have h0 := hg.runOut p h1 hrun
        rw [Graph.outDeg_eq_zero] at h0 ⊢
        intro e he
        rcases hnewE e he with he1 | ⟨hsrc, _⟩
        · exact h0 e he1
        · rw [hsrc]
          exact (hnewid p h1 ·.symm)
      · rw [h2, hwaiting] at hrun
        cases hrun
    · -- samePaired
      intro p hp q hq hne hnm
      rcases hmemcases p hp with h1 | ⟨h1, h1'⟩ <;> rcases hmemcases q hq with h2 | ⟨h2, h2'⟩
      · rcases hg.samePaired p h1 q h2 hne hnm with ⟨t, ht⟩ | ⟨t, ht⟩
        · exact Or.inl ⟨t, holdE _ ht⟩
        · exact Or.inr ⟨t, holdE _ ht⟩
      · -- q is the new node
        refine Or.inr ?_
        rw [h2]
        refine hsn p ?_ ?_ ?_
        · rw [← hnodes]; exact hmemold _ h1
        · rw [hnm, h2']
        · exact hnewid p h1
      · refine Or.inl ?_
        rw [h1]
        refine hsn q ?_ ?_ ?_
        · rw [← hnodes]; exact hmemold _ h2
        · rw [← hnm, h1']
        · exact hnewid q h2
      · exact absurd (h1.trans h2.symm) hne
  · -- children shapes
    intro c hc
    rw [hchildren] at hc
    obtain ⟨n, top, hcs⟩ := child_actions_shape cfg action.timestamp _ c hc
    exact ⟨n, action.timestamp, top, hcs⟩
  · -- conditional edge decrease
    intro hnsf hdec e he
    rcases hnewE e he with h1 | ⟨hsrc, hshape⟩
    · exact hdec e h1
    · rw [hsrc]
      rcases hshape with ⟨_, p, hp, hy, hne, _⟩ | ⟨_, pid, hpid, hy⟩ | ⟨_, T, hT, p, hp, hy, hrx⟩
      · rcases List.mem_append.mp hp with h2 | h2
        · have := hg.nodesLT p h2
          omega
        · exfalso
          have := List.mem_singleton.mp h2
          apply hne
          rw [this]
      · obtain ⟨a, ha⟩ := hpar pid hpid
        have := hg.nodesLT _ ha
        omega
      · rcases List.mem_append.mp hp with h2 | h2
        · have := hg.nodesLT p h2
          omega
        · exfalso
          -- a SAME_TOPIC edge back to the fresh action makes it self-feeding
          have hpeq := List.mem_singleton.mp h2
          rw [hpeq] at hrx
          simp only at hrx
          rw [haeq] at hrx
          have htop : atop = T := Action.isRxOn_rx hrx
          have hcause' : recomputed_cause action = .topicInput atop := by
            rw [haeq]; rfl
          rw [hcause', htop] at hcause hT
          exact hnsf ⟨model, T, by rw [hcause', htop], hmodel, hcause, hT⟩

end Orch

namespace Orch

/-- Well-shaped worklist items: each is a WAITING rx action whose cause is the
topic-input of its own topic, with any parent id already present in the graph. -/
def WorklistOK (g : Graph) (L : List (Action × Option Nat)) : Prop :=
  ∀ ap ∈ L, (∃ n ts top, ap.1 = Action.rx .WAITING n ts (.topicInput top) top none) ∧
    (∀ pid, ap.2 = some pid → ∃ a, (pid, a) ∈ g.nodes)

theorem add_aae_inv (cfg : Config) :
    ∀ (fuel : Nat) (g : Graph) (nid : Nat) (L : List (Action × Option Nat))
      (g' : Graph) (nid' : Nat),
    GInv g nid → WorklistOK g L →
    add_action_and_effects cfg fuel g nid L = .ok (g', nid') →
    GInv g' nid' ∧
    (∀ p ∈ g.nodes, p ∈ g'.nodes) ∧
    (∀ p ∈ g'.nodes, p ∈ g.nodes ∨ p.2.state = .WAITING) ∧
    (∀ e ∈ g.edges, e ∈ g'.edges) ∧
    ((∀ e ∈ g.edges, e.2.1 < e.1) → (∀ e ∈ g'.edges, e.2.1 < e.1)) ∧
    nid ≤ nid' := by
  intro fuel
  induction fuel with
  | zero =>
    intro g nid L g' nid' hg _ h
    match L with
    | [] =>
      simp only [add_action_and_effects] at h
      injection h with h
      injection h with h1 h2
      rw [← h1, ← h2]
      exact ⟨hg, fun p hp => hp, fun p hp => Or.inl hp, fun e he => he,
        fun hd => hd, Nat.le_refl _⟩
    | _ :: _ =>
      simp only [add_action_and_effects] at h
      cases h
  | succ fuel ih =>
    intro g nid L g' nid' hg hL h
    match L with
    | [] =>
      simp only [add_action_and_effects] at h
      injection h with h
      injection h with h1 h2
      rw [← h1, ← h2]
      exact ⟨hg, fun p hp => hp, fun p hp => Or.inl hp, fun e he => he,
        fun hd => hd, Nat.le_refl _⟩
    | (action, parent) :: rest =>
      by_cases hsf : SelfFeeding cfg action
      · exact absurd h (aae_selfFeeding_no_ok cfg (fuel+1) g nid _
          ⟨(action, parent), List.mem_cons_self _ _, hsf⟩ (g', nid'))
      simp only [add_action_and_effects] at h
      match hstep : add_action_and_effects_step cfg g nid action parent with
      | .error e => rw [hstep] at h; cases h
      | .ok (g2, node_id, children) =>
        rw [hstep] at h
        have hitem := hL (action, parent) (List.mem_cons_self _ _)
        obtain ⟨hinv2, hold2, hnew2, holdE2, hch, hdec2⟩ :=
          step_preserves_GInv cfg g nid action parent g2 node_id children hg
            hitem.1 (fun pid' hp => hitem.2 pid' hp) hstep
        have hnode_id : node_id = nid :=
          (add_action_and_effects_step_char cfg g nid action parent g2 node_id
            children hstep).1
        have hL2 : WorklistOK g2 (children.map (fun c => (c, some node_id)) ++ rest) := by
          intro ap hap
          rcases List.mem_append.mp hap with h1 | h1
          · obtain ⟨c, hc, hceq⟩ := List.mem_map.mp h1
            refine ⟨by rw [← hceq]; exact hch c hc, ?_⟩
            intro pid hpid
            rw [← hceq] at hpid
            injection hpid with hpid
            refine ⟨action, ?_⟩
            rw [← hpid, hnode_id]
            have hm := (add_action_and_effects_step_char cfg g nid action
              parent g2 node_id children hstep).2.1
            rw [hm]
            exact List.mem_append.mpr (Or.inr (List.mem_singleton.mpr rfl))
          · obtain ⟨hsh, hpar⟩ := hL ap (List.mem_cons_of_mem _ h1)
            refine ⟨hsh, ?_⟩
            intro pid hpid
            obtain ⟨a, ha⟩ := hpar pid hpid
            exact ⟨a, hold2 _ ha⟩
        obtain ⟨hinv', hold', hnew', holdE', hdec', hle'⟩ :=
          ih g2 (nid+1) _ g' nid' hinv2 hL2 h
        refine ⟨hinv', ?_, ?_, ?_, ?_, by omega⟩
        · intro p hp; exact hold' p (hold2 p hp)
        · intro p hp
          rcases hnew' p hp with h1 | h1
          · rcases hnew2 p h1 with h2 | ⟨_, h2⟩
            · exact Or.inl h2
            · refine Or.inr ?_
              obtain ⟨n, ts, top, hac⟩ := hitem.1
              have hac' : action = Action.rx .WAITING n ts (.topicInput top) top none := hac
              rw [h2, hac']
              rfl
          · exact Or.inr h1
        · intro e he; exact holdE' e (holdE2 e he)
        · intro hd e he
          exact hdec' (hdec2 hsf hd) e he

end Orch

namespace Orch

/-! ## Node evolutions: buffering and scheduling preserve the invariants -/

theorem Action.buffer_isRx (a : Action) (m : Msg) : (a.buffer m).isRx = a.isRx := by
  cases a <;> rfl

theorem Action.buffer_node (a : Action) (m : Msg) : (a.buffer m).node = a.node := by
  cases a <;> rfl

theorem Action.setState_node (a : Action) (s : ActionState) :
    (a.setState s).node = a.node := by
  cases a <;> rfl

theorem Action.buffer_rx_inv {a : Action} {m : Msg} {st : ActionState} {n : NodeName}
    {ts : Time} {c : Cause} {top : TopicName} {d : Option Msg}
    (h : a.buffer m = .rx st n ts c top d) : ∃ st0 d0, a = .rx st0 n ts c top d0 := by
  cases a with
  | rx st0 n0 ts0 c0 top0 d0 =>
    injection h with h1 h2 h3 h4 h5 h6
    exact ⟨st0, d0, by rw [h2, h3, h4, h5]⟩
  | timer _ _ _ _ _ => cases h

theorem Action.setState_rx_inv {a : Action} {s st : ActionState} {n : NodeName}
    {ts : Time} {c : Cause} {top : TopicName} {d : Option Msg}
    (h : a.setState s = .rx st n ts c top d) : ∃ st0, a = .rx st0 n ts c top d := by
  cases a with
  | rx st0 n0 ts0 c0 top0 d0 =>
    injection h with h1 h2 h3 h4 h5 h6
    exact ⟨st0, by rw [h2, h3, h4, h5, h6]⟩
  | timer _ _ _ _ _ => cases h

theorem Action.buffer_state_of_isRx {a : Action} (ha : a.isRx = true) (m : Msg) :
    (a.buffer m).state = .READY := by
  cases a with
  | rx _ _ _ _ _ _ => rfl
  | timer _ _ _ _ _ => cases ha

/-- The node evolutions performed between insertions: each node keeps its id and
its action is unchanged, buffered (payload stored, state set READY), or — when
its out-degree is zero — set RUNNING; edges and the id sequence are untouched. -/
def NodeEvol (g g' : Graph) : Prop :=
  g'.edges = g.edges ∧ g'.nodes.map (·.1) = g.nodes.map (·.1) ∧
  ∀ p' ∈ g'.nodes, ∃ p ∈ g.nodes, p'.1 = p.1 ∧
    (p'.2 = p.2 ∨ (∃ m, p'.2 = p.2.buffer m ∧ p.2.state = .WAITING) ∨
     (p'.2 = p.2.setState .RUNNING ∧ g.outDeg p.1 = 0))

theorem GInv_of_NodeEvol {g g' : Graph} {nid : Nat} (hg : GInv g nid)
    (h : NodeEvol g g') : GInv g' nid := by
  obtain ⟨hE, hids, hN⟩ := h
  have hidmem : ∀ u : Nat, (∃ a, (u, a) ∈ g.nodes) → (∃ a, (u, a) ∈ g'.nodes) := by
    intro u hu
    have h1 : u ∈ g'.nodes.map (·.1) := by
      rw [hids]
      exact Graph.mem_ids.mpr hu
    exact Graph.mem_ids.mp h1
  refine ⟨?_, ?_, ?_, ?_, ?_, ?_, ?_⟩
  · intro p hp
    obtain ⟨q, hq, hid, _⟩ := hN p hp
    rw [hid]
    exact hg.nodesLT q hq
  · rw [hids]
    exact hg.nodup
  · intro e he
    rw [hE] at he
    obtain ⟨⟨a1, h1⟩, ⟨a2, h2⟩⟩ := hg.edgesValid e he
    exact ⟨hidmem _ ⟨a1, h1⟩, hidmem _ ⟨a2, h2⟩⟩
  · intro p hp
    obtain ⟨q, hq, _, hcase⟩ := hN p hp
    rcases hcase with h1 | ⟨m, h1, -⟩ | ⟨h1, _⟩
    · rw [h1]; exact hg.allRx q hq
    · rw [h1, Action.buffer_isRx]; exact hg.allRx q hq
    · rw [h1, Action.setState_isRx]; exact hg.allRx q hq
  · intro p hp st n ts c top d hpeq
    obtain ⟨q, hq, _, hcase⟩ := hN p hp
    rcases hcase with h1 | ⟨m, h1, -⟩ | ⟨h1, _⟩
    · exact hg.causeCons q hq st n ts c top d (h1 ▸ hpeq)
    · rw [h1] at hpeq
      obtain ⟨st0, d0, hq2⟩ := Action.buffer_rx_inv hpeq
      exact hg.causeCons q hq st0 n ts c top d0 hq2
    · rw [h1] at hpeq
      obtain ⟨st0, hq2⟩ := Action.setState_rx_inv hpeq
      exact hg.causeCons q hq st0 n ts c top d hq2
  · intro p hp hrun
    obtain ⟨q, hq, hid, hcase⟩ := hN p hp
    have houtd : g'.outDeg p.1 = g.outDeg q.1 := by
      unfold Graph.outDeg
      rw [hE, hid]
    rcases hcase with h1 | ⟨m, h1, -⟩ | ⟨h1, h0⟩
    · rw [houtd]
      exact hg.runOut q hq (h1 ▸ hrun)
    · exfalso
      rw [h1, Action.buffer_state_of_isRx (hg.allRx q hq) m] at hrun
      cases hrun
    · rw [houtd]
      exact h0
  · intro p hp q' hq' hne hnm
    obtain ⟨p0, hp0, hidp, hcp⟩ := hN p hp
    obtain ⟨q0, hq0, hidq, hcq⟩ := hN q' hq'
    have hnode_p : p.2.node = p0.2.node := by
      rcases hcp with h1 | ⟨m, h1, -⟩ | ⟨h1, _⟩
      · rw [h1]
      · rw [h1, Action.buffer_node]
      · rw [h1, Action.setState_node]
    have hnode_q : q'.2.node = q0.2.node := by
      rcases hcq with h1 | ⟨m, h1, -⟩ | ⟨h1, _⟩
      · rw [h1]
      · rw [h1, Action.buffer_node]
      · rw [h1, Action.setState_node]
    have := hg.samePaired p0 hp0 q0 hq0 (by rw [← hidp, ← hidq]; exact hne)
      (by rw [← hnode_p, ← hnode_q]; exact hnm)
    rw [hE, hidp, hidq]
    exact this

theorem NodeEvol.refl (g : Graph) : NodeEvol g g :=
  ⟨Eq.refl _, Eq.refl _, fun p hp => ⟨p, hp, Eq.refl _, Or.inl (Eq.refl _)⟩⟩

theorem eligibleB_outDeg {g0 : Graph} {p : Nat × Action} (h : eligibleB g0 p = true) :
    g0.outDeg p.1 = 0 := by
  unfold eligibleB at h
  simp only [decide_eq_true_eq, Bool.decide_and] at h
  exact (of_decide_eq_true (Bool.and_elim_left h))

theorem runAllGraph_evol (g : Graph) : NodeEvol g (runAllGraph g) := by
  refine ⟨Eq.refl _, ?_, ?_⟩
  · have hn : (runAllGraph g).nodes
        = g.nodes.map (fun q => if eligibleB g q then (q.1, q.2.setState .RUNNING) else q) :=
      Eq.refl _
    rw [hn, List.map_map]
    apply List.map_congr_left
    intro q _
    by_cases h : eligibleB g q = true
    · simp only [Function.comp, if_pos h]
    · simp only [Function.comp, if_neg h]
  · intro p hp
    obtain ⟨q, hq, hqe⟩ := List.mem_map.mp hp
    by_cases h : eligibleB g q = true
    · rw [if_pos h] at hqe
      exact ⟨q, hq, by rw [← hqe], Or.inr (Or.inr ⟨by rw [← hqe], eligibleB_outDeg h⟩)⟩
    · rw [if_neg h] at hqe
      rw [← hqe]
      exact ⟨q, hq, Eq.refl _, Or.inl (Eq.refl _)⟩

theorem ready_external_evol (g : Graph) (topic : TopicName) (msg : Msg) (its : Time) :
    NodeEvol g (ready_external g topic msg its) := by
  have hkey : ∀ p : Nat × Action,
      (match p.2 with
       | .rx .WAITING _ _ _ t _ =>
           if t = topic ∧ p.2.timestamp = its then (p.1, p.2.buffer msg) else p
       | _ => p) = p ∨
      ((match p.2 with
       | .rx .WAITING _ _ _ t _ =>
           if t = topic ∧ p.2.timestamp = its then (p.1, p.2.buffer msg) else p
       | _ => p) = (p.1, p.2.buffer msg) ∧ p.2.state = .WAITING) := by
    intro p
    obtain ⟨i, a⟩ := p
    cases a with
    | rx st n ts c top d =>
      cases st with
      | WAITING =>
        dsimp only
        split
        · exact Or.inr ⟨Eq.refl _, Eq.refl _⟩
        · exact Or.inl (Eq.refl _)
      | READY => exact Or.inl (Eq.refl _)
      | RUNNING => exact Or.inl (Eq.refl _)
    | timer st n ts c per => exact Or.inl (Eq.refl _)
  refine ⟨Eq.refl _, ?_, ?_⟩
  · have hn : (ready_external g topic msg its).nodes
        = g.nodes.map (fun p =>
            match p.2 with
            | .rx .WAITING _ _ _ t _ =>
                if t = topic ∧ p.2.timestamp = its then (p.1, p.2.buffer msg) else p
            | _ => p) := Eq.refl _
    rw [hn, List.map_map]
    apply List.map_congr_left
    intro q _
    rcases hkey q with h | h
    · simp only [Function.comp]
      rw [h]
    · simp only [Function.comp]
      rw [h.1]
  · intro p hp
    obtain ⟨q, hq, hqe⟩ := List.mem_map.mp hp
    rcases hkey q with h | ⟨h, hW⟩
    · rw [h] at hqe
      rw [← hqe]
      exact ⟨q, hq, Eq.refl _, Or.inl (Eq.refl _)⟩
    · rw [h] at hqe
      exact ⟨q, hq, by rw [← hqe], Or.inr (Or.inl ⟨msg, by rw [← hqe], hW⟩)⟩

theorem NodeEvol.setBuffered {g0 g : Graph} (h : NodeEvol g0 g) {p : Nat × Action}
    (hp : p ∈ g0.nodes) (hW : p.2.state = .WAITING) (m : Msg) :
    NodeEvol g0 (g.setAction p.1 (p.2.buffer m)) := by
  obtain ⟨hE, hids, hN⟩ := h
  refine ⟨hE, ?_, ?_⟩
  · have hn : (g.setAction p.1 (p.2.buffer m)).nodes
        = g.nodes.map (fun q => if q.1 = p.1 then (p.1, p.2.buffer m) else q) := Eq.refl _
    rw [hn, List.map_map]
    have : ∀ q ∈ g.nodes,
        ((·.1) ∘ fun q => if q.1 = p.1 then (p.1, p.2.buffer m) else q) q = q.1 := by
      intro q _
      by_cases h1 : q.1 = p.1
      · simp only [Function.comp, if_pos h1]
        rw [h1]
      · simp only [Function.comp, if_neg h1]
    rw [List.map_congr_left this]
    exact hids
  · intro p' hp'
    obtain ⟨q, hq, hqe⟩ := List.mem_map.mp hp'
    by_cases h1 : q.1 = p.1
    · rw [if_pos h1] at hqe
      exact ⟨p, hp, by rw [← hqe], Or.inr (Or.inl ⟨m, by rw [← hqe], hW⟩)⟩
    · rw [if_neg h1] at hqe
      rw [← hqe]
      exact hN q hq

theorem buffer_loop_aux_evol (g0 : Graph) (topic : TopicName) (msg : Msg)
    (cause : Option Nat) (its : Option Time) :
    ∀ (l : List (Nat × Action)) (g g' : Graph),
    (∀ q ∈ l, q ∈ g0.nodes) → NodeEvol g0 g →
    buffer_loop_aux g0 topic msg cause its l g = .ok g' → NodeEvol g0 g' := by
  intro l
  induction l with
  | nil =>
    intro g g' _ hg h
    injection h with h
    rw [← h]
    exact hg
  | cons p rest ih =>
    intro g g' hl hg h
    have hrest : ∀ q ∈ rest, q ∈ g0.nodes := fun q hq => hl q (List.mem_cons_of_mem _ hq)
    have hp : p ∈ g0.nodes := hl p (List.mem_cons_self _ _)
    unfold buffer_loop_aux at h
    match hp2 : p.2 with
    | .rx .WAITING n ts c t d =>
      rw [hp2] at h
      dsimp only at h
      by_cases ht : t = topic
      · rw [if_pos ht] at h
        match cause with
        | some cid =>
          dsimp only at h
          split at h
          · split at h
            · refine ih _ g' hrest ?_ h
              have := NodeEvol.setBuffered hg hp (by rw [hp2]; rfl) msg
              rwa [hp2] at this
            · cases h
          · exact ih g g' hrest hg h
        | none =>
          match its with
          | none => cases h
          | some i0 => cases h
      · rw [if_neg ht] at h
        exact ih g g' hrest hg h
    | .rx .READY n ts c t d => rw [hp2] at h; exact ih g g' hrest hg h
    | .rx .RUNNING n ts c t d => rw [hp2] at h; exact ih g g' hrest hg h
    | .timer st n ts c per => rw [hp2] at h; exact ih g g' hrest hg h

theorem buffer_loop_evol (g0 : Graph) (topic : TopicName) (msg : Msg)
    (cause : Option Nat) (its : Option Time) (g' : Graph)
    (h : buffer_loop g0 topic msg cause its = .ok g') : NodeEvol g0 g' :=
  buffer_loop_aux_evol g0 topic msg cause its g0.nodes g0 g'
    (fun _ hq => hq) (NodeEvol.refl g0) h

theorem removeNode_GInv {g : Graph} {nid i : Nat} (hg : GInv g nid) :
    GInv (g.removeNode i) nid := by
  have hmemN : ∀ p : Nat × Action, p ∈ (g.removeNode i).nodes → p ∈ g.nodes ∧ p.1 ≠ i := by
    intro p hp
    have := List.mem_filter.mp hp
    exact ⟨this.1, by simpa using this.2⟩
  have hmemN2 : ∀ p : Nat × Action, p ∈ g.nodes → p.1 ≠ i → p ∈ (g.removeNode i).nodes := by
    intro p hp hne
    exact List.mem_filter.mpr ⟨hp, by simpa using hne⟩
  have hmemE : ∀ e : Nat × Nat × EdgeType, e ∈ (g.removeNode i).edges →
      e ∈ g.edges ∧ e.1 ≠ i ∧ e.2.1 ≠ i := by
    intro e he
    have := List.mem_filter.mp he
    exact ⟨this.1, by simpa using this.2⟩
  refine ⟨?_, ?_, ?_, ?_, ?_, ?_, ?_⟩
  · intro p hp
    exact hg.nodesLT p (hmemN p hp).1
  · exact List.Nodup.sublist (List.Sublist.map _ (List.filter_sublist _)) hg.nodup
  · intro e he
    obtain ⟨he0, hs, ht⟩ := hmemE e he
    obtain ⟨⟨a1, h1⟩, ⟨a2, h2⟩⟩ := hg.edgesValid e he0
    exact ⟨⟨a1, hmemN2 _ h1 hs⟩, ⟨a2, hmemN2 _ h2 ht⟩⟩
  · intro p hp
    exact hg.allRx p (hmemN p hp).1
  · intro p hp
    exact hg.causeCons p (hmemN p hp).1
  · intro p hp hrun
    have h0 := hg.runOut p (hmemN p hp).1 hrun
    rw [Graph.outDeg_eq_zero] at h0 ⊢
    intro e he
    exact h0 e (hmemE e he).1
  · intro p hp q hq hne hnm
    obtain ⟨hp0, hpne⟩ := hmemN p hp
    obtain ⟨hq0, hqne⟩ := hmemN q hq
    rcases hg.samePaired p hp0 q hq0 hne hnm with ⟨t, ht⟩ | ⟨t, ht⟩
    · exact Or.inl ⟨t, List.mem_filter.mpr ⟨ht, by simpa using ⟨hpne, hqne⟩⟩⟩
    · exact Or.inr ⟨t, List.mem_filter.mpr ⟨ht, by simpa using ⟨hqne, hpne⟩⟩⟩

end Orch

namespace Orch

/-! ## State invariant and its preservation by every orchestrator callback -/

/-- Every edge points from a newer action to an older one (ids are allocated
increasingly, and every edge added at insertion has the fresh action as source). -/
def EdgesDec (g : Graph) : Prop := ∀ e ∈ g.edges, e.2.1 < e.1

/-- The orchestrator state invariant: graph well-formedness plus the
edge-direction ranking. -/
def SInv (s : OState) : Prop := GInv s.graph s.next_id ∧ EdgesDec s.graph

theorem NodeEvol.edgesDec {g g' : Graph} (h : NodeEvol g g') (hd : EdgesDec g) :
    EdgesDec g' := by
  intro e he
  rw [h.1] at he
  exact hd e he

theorem removeNode_edgesDec {g : Graph} (i : Nat) (hd : EdgesDec g) :
    EdgesDec (g.removeNode i) := by
  intro e he
  exact hd e (List.mem_filter.mp he).1

theorem add_topic_input_sinv (cfg : Config) (fuel : Nat) (g : Graph) (nid : Nat)
    (t : Time) (topic : TopicName) (g' : Graph) (nid' : Nat)
    (hg : GInv g nid) (hd : EdgesDec g)
    (h : add_topic_input cfg fuel g nid t topic = .ok (g', nid')) :
    GInv g' nid' ∧ EdgesDec g' := by
  unfold add_topic_input at h
  have hwl : WorklistOK g ((cfg.node_models.filterMap (fun node =>
      if Cause.topicInput topic ∈ node.get_possible_inputs then
        some (Action.rx .WAITING node.get_name t (.topicInput topic) topic none)
      else none)).map (fun a => (a, none))) := by
    intro ap hap
    obtain ⟨a, ha, hae⟩ := List.mem_map.mp hap
    obtain ⟨node, _, hsome⟩ := List.mem_filterMap.mp ha
    constructor
    · refine ⟨node.get_name, t, topic, ?_⟩
      rw [← hae]
      split at hsome
      · exact (Option.some.inj hsome).symm
      · cases hsome
    · intro pid hpid
      rw [← hae] at hpid
      cases hpid
  obtain ⟨h1, -, -, -, h5, -⟩ := add_aae_inv cfg fuel g nid _ g' nid' hg hwl h
  exact ⟨h1, h5 hd⟩

theorem request_next_input_sinv (cfg : Config) (fuel : Nat) (s s' : OState)
    (evs : List Event) (hs : SInv s)
    (h : request_next_input cfg fuel s = .ok (s', evs)) : SInv s' := by
  unfold request_next_input at h
  match hni : s.next_input with
  | some (.futureInput topic) =>
    rw [hni] at h
    dsimp only at h
    match hst : s.simulator_time with
    | none =>
      rw [hst] at h
      cases h
    | some st =>
      rw [hst] at h
      dsimp only at h
      match hadd : add_topic_input cfg fuel s.graph s.next_id st topic with
      | .error e => rw [hadd] at h; cases h
      | .ok (g, nid) =>
        rw [hadd] at h
        simp only [Except.ok.injEq, Prod.mk.injEq] at h
        obtain ⟨h1, -⟩ := h
        rw [← h1]
        exact add_topic_input_sinv cfg fuel s.graph s.next_id st topic g nid
          hs.1 hs.2 hadd
  | some (.futureTimestep t) =>
    rw [hni] at h
    dsimp only at h
    match hst : s.simulator_time with
    | none =>
      rw [hst] at h
      dsimp only [add_pending_timers_until] at h
      cases h
    | some st =>
      rw [hst, add_pending_timers_until_noop] at h
      dsimp only at h
      simp only [Except.ok.injEq, Prod.mk.injEq] at h
      obtain ⟨h1, -⟩ := h
      rw [← h1]
      exact hs
  | none =>
    rw [hni] at h
    cases h

theorem process_sinv (cfg : Config) (fuel : Nat) (s s' : OState) (evs : List Event)
    (hs : SInv s) (h : process cfg fuel s = .ok (s', evs)) : SInv s' := by
  unfold process at h
  match hpl : process_loop fuel s.graph with
  | .error e => rw [hpl] at h; cases h
  | .ok (g, evs0) =>
    rw [hpl] at h
    have hchar := process_loop_char fuel s.graph (g, evs0) hs.1.allRx hs.1.nodup hpl
    have hge : g = runAllGraph s.graph := congrArg Prod.fst hchar
    have hmid : SInv { s with graph := g } := by
      refine ⟨?_, ?_⟩
      · rw [hge]
        exact GInv_of_NodeEvol hs.1 (runAllGraph_evol s.graph)
      · rw [hge]
        exact (runAllGraph_evol s.graph).edgesDec hs.2
    dsimp only at h
    split at h
    · simp only [Except.ok.injEq, Prod.mk.injEq] at h
      obtain ⟨h1, -⟩ := h
      rw [← h1]
      exact hmid
    · split at h
      · cases h
      · simp only [Except.ok.injEq, Prod.mk.injEq] at h
        obtain ⟨h1, -⟩ := h
        rw [← h1]
        exact hmid
      · split at h
        · cases h
        · rename_i s2 evs2 hreq
          simp only [Except.ok.injEq, Prod.mk.injEq] at h
          obtain ⟨h1, -⟩ := h
          rw [← h1]
          exact request_next_input_sinv cfg fuel _ s2 evs2 hmid hreq

theorem wait_until_publish_allowed_sinv (cfg : Config) (fuel : Nat) (s s' : OState)
    (topic : TopicName) (evs : List Event) (hs : SInv s)
    (h : wait_until_publish_allowed cfg fuel s topic = .ok (s', evs)) : SInv s' := by
  unfold wait_until_publish_allowed at h
  split at h
  · cases h
  split at h
  · cases h
  dsimp only at h
  split at h
  · refine request_next_input_sinv cfg fuel _ s' evs ?_ h
    exact hs
  · simp only [Except.ok.injEq, Prod.mk.injEq] at h
    obtain ⟨h1, -⟩ := h
    rw [← h1]
    exact hs

theorem wait_until_time_publish_allowed_sinv (cfg : Config) (fuel : Nat) (s s' : OState)
    (t : Time) (evs : List Event) (hs : SInv s)
    (h : wait_until_time_publish_allowed cfg fuel s t = .ok (s', evs)) : SInv s' := by
  unfold wait_until_time_publish_allowed at h
  split at h
  · cases h
  dsimp only at h
  split at h
  · refine request_next_input_sinv cfg fuel _ s' evs ?_ h
    exact hs
  · simp only [Except.ok.injEq, Prod.mk.injEq] at h
    obtain ⟨h1, -⟩ := h
    rw [← h1]
    exact hs

theorem interception_subscription_callback_sinv (cfg : Config) (fuel : Nat)
    (s s' : OState) (topic : TopicName) (msg : Msg) (evs : List Event) (hs : SInv s)
    (h : interception_subscription_callback cfg fuel s topic msg = .ok (s', evs)) :
    SInv s' := by
  unfold interception_subscription_callback at h
  split at h
  · simp only [Except.ok.injEq, Prod.mk.injEq] at h
    obtain ⟨h1, -⟩ := h
    rw [← h1]
    exact hs
  split at h
  · -- a RUNNING cause was found; the payload is buffered and the cause removed
    rename_i cid _
    split at h
    · cases h
    · rename_i g2 hbuf
      have hev := buffer_loop_evol s.graph topic msg (some cid) none g2 hbuf
      refine process_sinv cfg fuel _ s' evs ⟨?_, ?_⟩ h
      · exact removeNode_GInv (GInv_of_NodeEvol hs.1 hev)
      · exact removeNode_edgesDec cid (hev.edgesDec hs.2)
  · -- no RUNNING cause: the external-input branch
    split at h
    · split at h
      · cases h
      · rename_i its _
        split at h
        · cases h
        · rename_i g2 hbuf
          have hev := buffer_loop_evol s.graph topic msg none its g2 hbuf
          refine process_sinv cfg fuel _ s' evs ⟨?_, ?_⟩ h
          · exact GInv_of_NodeEvol hs.1 hev
          · exact hev.edgesDec hs.2
    · cases h
  · cases h

theorem status_callback_sinv (cfg : Config) (fuel : Nat) (s s' : OState)
    (node_name : NodeName) (evs : List Event) (hs : SInv s)
    (h : status_callback cfg fuel s node_name = .ok (s', evs)) : SInv s' := by
  unfold status_callback at h
  split at h
  · cases h
  · rename_i cid _
    exact process_sinv cfg fuel _ s' evs
      ⟨removeNode_GInv hs.1, removeNode_edgesDec cid hs.2⟩ h

theorem step_sinv (cfg : Config) (s s' : OState) (h : Step cfg s s') (hs : SInv s) :
    SInv s' := by
  cases h with
  | offerInput topic fuel _ _ evs heq =>
      exact wait_until_publish_allowed_sinv cfg fuel s s' topic evs hs heq
  | offerTime t fuel _ _ evs heq =>
      exact wait_until_time_publish_allowed_sinv cfg fuel s s' t evs hs heq
  | message topic msg fuel _ _ evs heq =>
      exact interception_subscription_callback_sinv cfg fuel s s' topic msg evs hs heq
  | status node_name fuel _ _ evs heq =>
      exact status_callback_sinv cfg fuel s s' node_name evs hs heq

theorem initState_sinv (t0 : Option Time) : SInv (initState t0) := by
  refine ⟨⟨?_, ?_, ?_, ?_, ?_, ?_, ?_⟩, ?_⟩
  · intro p hp; cases hp
  · exact List.nodup_nil
  · intro e he; cases he
  · intro p hp; cases hp
  · intro p hp; cases hp
  · intro p hp; cases hp
  · intro p hp; cases hp
  · intro e he; cases he

theorem reachable_sinv (cfg : Config) (t0 : Option Time) (s : OState)
    (h : Reachable cfg t0 s) : SInv s := by
  induction h with
  | refl => exact initState_sinv t0
  | tail _ h2 ih => exact step_sinv cfg _ _ h2 ih

theorem transGen_lt {g : Graph} (hd : EdgesDec g) :
    ∀ u v, Relation.TransGen (fun x y => ∃ t, (x, y, t) ∈ g.edges) u v → v < u := by
  intro u v h
  induction h with
  | single h1 =>
    obtain ⟨t, ht⟩ := h1
    exact hd _ ht
  | tail _ h2 ih =>
    obtain ⟨t, ht⟩ := h2
    have := hd _ ht
    simp only at this ih
    omega

end Orch

namespace Orch

/-! ## Claims C1 and C3: graph invariants at reachable states -/

/-- **C1.**  In every reachable state the constraint graph is acyclic: every
edge points from a newer (higher-id) action to an older one — each edge added
by `__add_action_and_effects` / `__add_all_effects_for_cause` has the newly
inserted action as source and an already-existing action as target, and node
removal only deletes edges — so no chain of edges returns to its start. -/
theorem C1_graph_acyclic (cfg : Config) (t0 : Option Time) (s : OState)
    (h : Reachable cfg t0 s) :
    (∀ e ∈ s.graph.edges, e.2.1 < e.1) ∧
    ∀ n, ¬ Relation.TransGen (fun u v => ∃ t, (u, v, t) ∈ s.graph.edges) n n := by
  have hd := (reachable_sinv cfg t0 s h).2
  refine ⟨hd, ?_⟩
  intro n hcyc
  exact absurd (transGen_lt hd n n hcyc) (lt_irrefl n)

/-- A configuration whose input on `"/x"` causes a chained rx on `"/y"`, so the
granted offer inserts two actions joined by a CAUSALITY edge. -/
def chainCfg : Config :=
  ⟨[⟨"NA", [(.topicInput "/x", [.topicPublish "/y"])]⟩,
    ⟨"NB", [(.topicInput "/y", [])]⟩], ["/x"]⟩

/-- The state after the `"/x"` offer is granted under `chainCfg`: the root rx
at NA, its caused rx at NB, and the CAUSALITY edge from child to parent. -/
def chainWaiting : OState :=
  { next_input := none, simulator_time := some 0,
    graph := { nodes := [(0, Action.rx .WAITING "NA" 0 (.topicInput "/x") "/x" none),
                         (1, Action.rx .WAITING "NB" 0 (.topicInput "/y") "/y" none)],
               edges := [(1, 0, .CAUSALITY)] },
    next_id := 2 }

theorem C1_witness :
    Reachable chainCfg (some 0) chainWaiting ∧
    (∀ e ∈ chainWaiting.graph.edges, e.2.1 < e.1) ∧
    (∀ n, ¬ Relation.TransGen
      (fun u v => ∃ t, (u, v, t) ∈ chainWaiting.graph.edges) n n) := by
  have hr : Reachable chainCfg (some 0) chainWaiting :=
    Relation.ReflTransGen.tail Relation.ReflTransGen.refl
      (Step.offerInput "/x" 10 (initState (some 0)) chainWaiting
        [.grantedInput "/x"] rfl)
  exact ⟨hr, (C1_graph_acyclic chainCfg (some 0) chainWaiting hr).1,
             (C1_graph_acyclic chainCfg (some 0) chainWaiting hr).2⟩

/-- **C3.**  In every reachable state at most one action per node name is
RUNNING: the SAME_NODE edges added at insertion pair any two actions at one
node, and the out-degree-zero eligibility test of `__process` keeps an action
with any out-edge from entering RUNNING. -/
theorem C3_one_running_per_node (cfg : Config) (t0 : Option Time) (s : OState)
    (h : Reachable cfg t0 s) :
    ∀ p ∈ s.graph.nodes, ∀ q ∈ s.graph.nodes, p.2.node = q.2.node →
      p.2.state = .RUNNING → q.2.state = .RUNNING → p = q := by
  obtain ⟨hg, -⟩ := reachable_sinv cfg t0 s h
  intro p hp q hq hnm hpr hqr
  by_cases hid : q.1 = p.1
  · exact (coupling_of_nodup hg.nodup p hp q hq hid).symm
  · exfalso
    rcases hg.samePaired p hp q hq (fun hh => hid hh.symm) hnm with ⟨t, ht⟩ | ⟨t, ht⟩
    · have h0 := hg.runOut p hp hpr
      rw [Graph.outDeg_eq_zero] at h0
      exact h0 (p.1, q.1, t) ht (Eq.refl _)
    · have h0 := hg.runOut q hq hqr
      rw [Graph.outDeg_eq_zero] at h0
      exact h0 (q.1, p.1, t) ht (Eq.refl _)

theorem C3_witness :
    Reachable demoCfg (some 0) demoWaiting ∧
    (∀ p ∈ demoWaiting.graph.nodes, ∀ q ∈ demoWaiting.graph.nodes,
      p.2.node = q.2.node → p.2.state = .RUNNING → q.2.state = .RUNNING → p = q) := by
  have hr : Reachable demoCfg (some 0) demoWaiting :=
    Relation.ReflTransGen.tail Relation.ReflTransGen.refl
      (Step.offerInput "/x" 10 (initState (some 0)) demoWaiting
        [.grantedInput "/x"] rfl)
  exact ⟨hr, C3_one_running_per_node demoCfg (some 0) demoWaiting hr⟩

end Orch

namespace Orch

/-! ## Claim C2: no reachable action ever leaves WAITING

An action could only be readied by the interception callback.  Its cause-found
branch requires an already-RUNNING action, and its external branch raises
`KeyError` (line 481, via the never-set `timestep` attribute) before buffering
whenever a waiting receiver exists — with no waiting receiver it buffers
nothing.  So by induction no reachable state holds a READY or RUNNING action,
and in particular at most one RUNNING publisher exists for every topic. -/

theorem find_running_action_aux_mem (cfg : Config) (topic : TopicName) :
    ∀ (l : List (Nat × Action)) (cid : Nat),
    find_running_action_aux cfg topic l = .ok cid →
    ∃ a, (cid, a) ∈ l ∧ a.state = .RUNNING := by
  intro l
  induction l with
  | nil => intro cid h; cases h
  | cons p rest ih =>
    intro cid h
    unfold find_running_action_aux at h
    split at h
    · rename_i hrun
      split at h
      · cases h
      · split at h
        · injection h with h
          refine ⟨p.2, ?_, hrun⟩
          rw [← h]
          exact List.mem_cons_self _ _
        · obtain ⟨a, ha, hA⟩ := ih cid h
          exact ⟨a, List.mem_cons_of_mem _ ha, hA⟩
    · obtain ⟨a, ha, hA⟩ := ih cid h
      exact ⟨a, List.mem_cons_of_mem _ ha, hA⟩

theorem find_running_action_status_aux_mem (cfg : Config) (nn : NodeName) :
    ∀ (l : List (Nat × Action)) (cid : Nat),
    find_running_action_status_aux cfg nn l = .ok cid →
    ∃ a, (cid, a) ∈ l ∧ a.state = .RUNNING := by
  intro l
  induction l with
  | nil => intro cid h; cases h
  | cons p rest ih =>
    intro cid h
    unfold find_running_action_status_aux at h
    split at h
    · rename_i hrun
      split at h
      · cases h
      · split at h
        · injection h with h
          refine ⟨p.2, ?_, hrun.1⟩
          rw [← h]
          exact List.mem_cons_self _ _
        · obtain ⟨a, ha, hA⟩ := ih cid h
          exact ⟨a, List.mem_cons_of_mem _ ha, hA⟩
    · obtain ⟨a, ha, hA⟩ := ih cid h
      exact ⟨a, List.mem_cons_of_mem _ ha, hA⟩

theorem topic_input_worklistOK (cfg : Config) (g : Graph) (t : Time)
    (topic : TopicName) :
    WorklistOK g ((cfg.node_models.filterMap (fun node =>
      if Cause.topicInput topic ∈ node.get_possible_inputs then
        some (Action.rx .WAITING node.get_name t (.topicInput topic) topic none)
      else none)).map (fun a => (a, none))) := by
  intro ap hap
  obtain ⟨a, ha, hae⟩ := List.mem_map.mp hap
  obtain ⟨node, _, hsome⟩ := List.mem_filterMap.mp ha
  constructor
  · refine ⟨node.get_name, t, topic, ?_⟩
    rw [← hae]
    split at hsome
    · exact (Option.some.inj hsome).symm
    · cases hsome
  · intro pid hpid
    rw [← hae] at hpid
    cases hpid

/-- Every present action is WAITING. -/
def AllWaiting (g : Graph) : Prop := ∀ p ∈ g.nodes, p.2.state = .WAITING

/-- The external-input buffering loop (`cause = None`) can only return the
graph unchanged: any WAITING rx action on the topic makes it raise first
(the `assert` at line 509, or the `KeyError` from the `timestep` read at
line 510). -/
theorem buffer_loop_aux_none_ok (g0 : Graph) (topic : TopicName) (msg : Msg)
    (its : Option Time) :
    ∀ (l : List (Nat × Action)) (g g' : Graph),
    buffer_loop_aux g0 topic msg none its l g = .ok g' → g' = g := by
  intro l
  induction l with
  | nil =>
    intro g g' h
    injection h with h
    exact h.symm
  | cons p rest ih =>
    intro g g' h
    unfold buffer_loop_aux at h
    match hp2 : p.2 with
    | .rx .WAITING n ts c t d =>
      rw [hp2] at h
      dsimp only at h
      by_cases ht : t = topic
      · rw [if_pos ht] at h
        match its with
        | none => cases h
        | some i0 => cases h
      · rw [if_neg ht] at h
        exact ih g g' h
    | .rx .READY n ts c t d => rw [hp2] at h; exact ih g g' h
    | .rx .RUNNING n ts c t d => rw [hp2] at h; exact ih g g' h
    | .timer st n ts c per => rw [hp2] at h; exact ih g g' h

theorem buffer_loop_none_ok (g0 : Graph) (topic : TopicName) (msg : Msg)
    (its : Option Time) (g' : Graph)
    (h : buffer_loop g0 topic msg none its = .ok g') : g' = g0 :=
  buffer_loop_aux_none_ok g0 topic msg its g0.nodes g0 g' h

theorem eligibleB_ready {g0 : Graph} {p : Nat × Action} (h : eligibleB g0 p = true) :
    p.2.state = .READY := by
  unfold eligibleB at h
  simp only [Bool.decide_and] at h
  exact of_decide_eq_true (Bool.and_elim_right h)

theorem runAllGraph_allWaiting {g : Graph} (h : AllWaiting g) :
    AllWaiting (runAllGraph g) := by
  intro p hp
  obtain ⟨q, hq, hqe⟩ := List.mem_map.mp hp
  by_cases he : eligibleB g q = true
  · exfalso
    have h1 := h q hq
    rw [eligibleB_ready he] at h1
    cases h1
  · rw [if_neg he] at hqe
    rw [← hqe]
    exact h q hq

theorem add_topic_input_allWaiting (cfg : Config) (fuel : Nat) (g : Graph)
    (nid : Nat) (t : Time) (topic : TopicName) (g' : Graph) (nid' : Nat)
    (hg : GInv g nid) (hw : AllWaiting g)
    (h : add_topic_input cfg fuel g nid t topic = .ok (g', nid')) :
    AllWaiting g' := by
  unfold add_topic_input at h
  obtain ⟨-, -, hnew, -, -, -⟩ := add_aae_inv cfg fuel g nid _ g' nid' hg
    (topic_input_worklistOK cfg g t topic) h
  intro p hp
  rcases hnew p hp with h1 | h1
  · exact hw p h1
  · exact h1

theorem request_next_input_allWaiting (cfg : Config) (fuel : Nat) (s s' : OState)
    (evs : List Event) (hs : SInv s) (hw : AllWaiting s.graph)
    (h : request_next_input cfg fuel s = .ok (s', evs)) : AllWaiting s'.graph := by
  unfold request_next_input at h
  match hni : s.next_input with
  | some (.futureInput topic) =>
    rw [hni] at h
    dsimp only at h
    match hst : s.simulator_time with
    | none =>
      rw [hst] at h
      cases h
    | some st =>
      rw [hst] at h
      dsimp only at h
      match hadd : add_topic_input cfg fuel s.graph s.next_id st topic with
      | .error e => rw [hadd] at h; cases h
      | .ok (g, nid) =>
        rw [hadd] at h
        simp only [Except.ok.injEq, Prod.mk.injEq] at h
        obtain ⟨h1, -⟩ := h
        rw [← h1]
        exact add_topic_input_allWaiting cfg fuel s.graph s.next_id st topic g nid
          hs.1 hw hadd
  | some (.futureTimestep t) =>
    rw [hni] at h
    dsimp only at h
    match hst : s.simulator_time with
    | none =>
      rw [hst] at h
      dsimp only [add_pending_timers_until] at h
      cases h
    | some st =>
      rw [hst, add_pending_timers_until_noop] at h
      dsimp only at h
      simp only [Except.ok.injEq, Prod.mk.injEq] at h
      obtain ⟨h1, -⟩ := h
      rw [← h1]
      exact hw
  | none =>
    rw [hni] at h
    cases h

theorem process_allWaiting (cfg : Config) (fuel : Nat) (s s' : OState)
    (evs : List Event) (hs : SInv s) (hw : AllWaiting s.graph)
    (h : process cfg fuel s = .ok (s', evs)) : AllWaiting s'.graph := by
  unfold process at h
  match hpl : process_loop fuel s.graph with
  | .error e => rw [hpl] at h; cases h
  | .ok (g, evs0) =>
    rw [hpl] at h
    have hchar := process_loop_char fuel s.graph (g, evs0) hs.1.allRx hs.1.nodup hpl
    have hge : g = runAllGraph s.graph := congrArg Prod.fst hchar
    have hmid : SInv { s with graph := g } := by
      refine ⟨?_, ?_⟩
      · rw [hge]
        exact GInv_of_NodeEvol hs.1 (runAllGraph_evol s.graph)
      · rw [hge]
        exact (runAllGraph_evol s.graph).edgesDec hs.2
    have hwmid : AllWaiting g := by
      rw [hge]
      exact runAllGraph_allWaiting hw
    dsimp only at h
    split at h
    · simp only [Except.ok.injEq, Prod.mk.injEq] at h
      obtain ⟨h1, -⟩ := h
      rw [← h1]
      exact hwmid
    · split at h
      · cases h
      · simp only [Except.ok.injEq, Prod.mk.injEq] at h
        obtain ⟨h1, -⟩ := h
        rw [← h1]
        exact hwmid
      · split at h
        · cases h
        · rename_i s2 evs2 hreq
          simp only [Except.ok.injEq, Prod.mk.injEq] at h
          obtain ⟨h1, -⟩ := h
          rw [← h1]
          exact request_next_input_allWaiting cfg fuel _ s2 evs2 hmid hwmid hreq

theorem wait_until_publish_allowed_allWaiting (cfg : Config) (fuel : Nat)
    (s s' : OState) (topic : TopicName) (evs : List Event)
    (hs : SInv s) (hw : AllWaiting s.graph)
    (h : wait_until_publish_allowed cfg fuel s topic = .ok (s', evs)) :
    AllWaiting s'.graph := by
  unfold wait_until_publish_allowed at h
  split at h
  · cases h
  split at h
  · cases h
  dsimp only at h
  split at h
  · refine request_next_input_allWaiting cfg fuel _ s' evs ?_ ?_ h
    · exact hs
    · exact hw
  · simp only [Except.ok.injEq, Prod.mk.injEq] at h
    obtain ⟨h1, -⟩ := h
    rw [← h1]
    exact hw

theorem wait_until_time_publish_allowed_allWaiting (cfg : Config) (fuel : Nat)
    (s s' : OState) (t : Time) (evs : List Event)
    (hs : SInv s) (hw : AllWaiting s.graph)
    (h : wait_until_time_publish_allowed cfg fuel s t = .ok (s', evs)) :
    AllWaiting s'.graph := by
  unfold wait_until_time_publish_allowed at h
  split at h
  · cases h
  dsimp only at h
  split at h
  · refine request_next_input_allWaiting cfg fuel _ s' evs ?_ ?_ h
    · exact hs
    · exact hw
  · simp only [Except.ok.injEq, Prod.mk.injEq] at h
    obtain ⟨h1, -⟩ := h
    rw [← h1]
    exact hw

theorem interception_subscription_callback_allWaiting (cfg : Config) (fuel : Nat)
    (s s' : OState) (topic : TopicName) (msg : Msg) (evs : List Event)
    (hs : SInv s) (hw : AllWaiting s.graph)
    (h : interception_subscription_callback cfg fuel s topic msg = .ok (s', evs)) :
    AllWaiting s'.graph := by
  unfold interception_subscription_callback at h
  split at h
  · simp only [Except.ok.injEq, Prod.mk.injEq] at h
    obtain ⟨h1, -⟩ := h
    rw [← h1]
    exact hw
  split at h
  · -- a RUNNING cause cannot be found: every action is WAITING
    rename_i cid hfind
    exfalso
    obtain ⟨a, ha, hrun⟩ :=
      find_running_action_aux_mem cfg topic s.graph.nodes cid hfind
    have := hw (cid, a) ha
    simp only at this
    rw [this] at hrun
    cases hrun
  · -- external branch: a raise would precede any buffering, so the graph
    -- is unchanged and the scheduler finds nothing to promote
    split at h
    · split at h
      · cases h
      · rename_i its _
        split at h
        · cases h
        · rename_i g2 hbuf
          have hg2 := buffer_loop_none_ok s.graph topic msg its g2 hbuf
          rw [hg2] at h
          exact process_allWaiting cfg fuel _ s' evs hs hw h
    · cases h
  · cases h

theorem status_callback_allWaiting (cfg : Config) (fuel : Nat) (s s' : OState)
    (node_name : NodeName) (evs : List Event) (hw : AllWaiting s.graph)
    (h : status_callback cfg fuel s node_name = .ok (s', evs)) :
    AllWaiting s'.graph := by
  unfold status_callback at h
  split at h
  · cases h
  · rename_i cid hfind
    exfalso
    obtain ⟨a, ha, hrun⟩ :=
      find_running_action_status_aux_mem cfg node_name s.graph.nodes cid hfind
    have := hw (cid, a) ha
    simp only at this
    rw [this] at hrun
    cases hrun

theorem step_allWaiting (cfg : Config) (s s' : OState) (h : Step cfg s s')
    (hs : SInv s) (hw : AllWaiting s.graph) : AllWaiting s'.graph := by
  cases h with
  | offerInput topic fuel _ _ evs heq =>
      exact wait_until_publish_allowed_allWaiting cfg fuel s s' topic evs hs hw heq
  | offerTime t fuel _ _ evs heq =>
      exact wait_until_time_publish_allowed_allWaiting cfg fuel s s' t evs hs hw heq
  | message topic msg fuel _ _ evs heq =>
      exact interception_subscription_callback_allWaiting cfg fuel s s' topic msg
        evs hs hw heq
  | status node_name fuel _ _ evs heq =>
      exact status_callback_allWaiting cfg fuel s s' node_name evs hw heq

theorem reachable_allWaiting (cfg : Config) (t0 : Option Time) (s : OState)
    (h : Reachable cfg t0 s) : AllWaiting s.graph := by
  induction h with
  | refl =>
    intro p hp
    cases hp
  | tail hab hbc ih =>
    exact step_allWaiting cfg _ _ hbc (reachable_sinv cfg t0 _ hab) ih

/-- **C2.**  In every reachable state, for every topic `T`, at most one action
is RUNNING whose node model declares `TopicPublish T` among the effects of its
cause.  In fact no reachable state holds a RUNNING (or READY) action at all:
the scheduler only promotes READY actions, the cause-found branch of the
interception callback needs an already-RUNNING action, and its external
branch raises before buffering whenever a waiting receiver exists. -/
theorem C2_one_running_publisher (cfg : Config) (T : TopicName) (t0 : Option Time)
    (s : OState) (h : Reachable cfg t0 s) :
    running_publisher_count cfg s.graph T ≤ 1 := by
  have hw := reachable_allWaiting cfg t0 s h
  unfold running_publisher_count
  have hnil : s.graph.nodes.filter
      (fun p => p.2.state = .RUNNING ∧ publishes cfg p.2 T) = [] := by
    rw [List.filter_eq_nil_iff]
    intro p hp
    simp only [decide_eq_true_eq, not_and]
    intro h1
    rw [hw p hp] at h1
    cases h1
  rw [hnil]
  simp

theorem C2_witness :
    Reachable chainCfg (some 0) chainWaiting ∧
    running_publisher_count chainCfg chainWaiting.graph "/y" ≤ 1 := by
  have hr : Reachable chainCfg (some 0) chainWaiting :=
    Relation.ReflTransGen.tail Relation.ReflTransGen.refl
      (Step.offerInput "/x" 10 (initState (some 0)) chainWaiting
        [.grantedInput "/x"] rfl)
  exact ⟨hr, C2_one_running_publisher chainCfg "/y" (some 0) chainWaiting hr⟩

end Orch
